import Mathlib

/-!
A verification development for a small Telegram affiliate-link bot
(`amazon_scraper.py`, `url_shortener.py`, `simple_bot.py`).

The Python code manipulates URLs through `urllib.parse` (`urlparse`,
`urlunparse`, `parse_qs`, `urlencode`, `quote_plus`, `unquote`), so the
relevant parts of that library are embedded here as well, following the
CPython implementation.  Python strings are modelled as `List Char`
(Unicode scalar values).  Network calls (`requests.head`, `requests.get`)
are modelled as explicit oracles of type `Str → Option Str`, where `none`
stands for a raised `requests.exceptions.RequestException` (timeout,
connection error, or a non-2xx status turned into an error by
`raise_for_status`).
-/

/-- Python strings are sequences of Unicode scalar values. -/
abbrev Str := List Char

/-! ### Character classes -/

/-- ASCII lowercase letter. -/
def isLowerAlpha (c : Char) : Bool := decide (97 ≤ c.toNat ∧ c.toNat ≤ 122)

/-- ASCII uppercase letter. -/
def isUpperAlpha (c : Char) : Bool := decide (65 ≤ c.toNat ∧ c.toNat ≤ 90)

/-- ASCII digit. -/
def isDigitChar (c : Char) : Bool := decide (48 ≤ c.toNat ∧ c.toNat ≤ 57)

/-- ASCII letter (`url[0].isascii() and url[0].isalpha()` in `urlsplit`). -/
def isAsciiAlpha (c : Char) : Bool := isLowerAlpha c || isUpperAlpha c

/-- ASCII alphanumeric. -/
def isAsciiAlnum (c : Char) : Bool := isAsciiAlpha c || isDigitChar c

/-- The character class `[A-Z0-9]` used by the ASIN regexes. -/
def isUpperAlnum (c : Char) : Bool := isUpperAlpha c || isDigitChar c

/-- `scheme_chars` of `urllib.parse`: letters, digits and `+-.`. -/
def isSchemeChar (c : Char) : Bool :=
  isAsciiAlnum c || decide (c = '+') || decide (c = '-') || decide (c = '.')

/-- The characters removed everywhere by `urlsplit`
(`_UNSAFE_URL_BYTES_TO_REMOVE`: tab, carriage return, line feed). -/
def isUnsafeUrlByte (c : Char) : Bool :=
  decide (c.toNat = 9) || decide (c.toNat = 13) || decide (c.toNat = 10)

/-- `_WHATWG_C0_CONTROL_OR_SPACE`: code points `0x00`–`0x20`. -/
def isC0OrSpace (c : Char) : Bool := decide (c.toNat ≤ 32)

/-- ASCII character (code point below 128), as in `str.isascii`. -/
def isAsciiChar (c : Char) : Bool := decide (c.toNat < 128)

/-! ### Generic string utilities mirroring Python `str` operations -/

/-- `s.find(c)`: index of the first occurrence, if any. -/
def findCharIdx (sep : Char) : Str → Option Nat
  | [] => none
  | c :: cs => if c = sep then some 0 else (findCharIdx sep cs).map (· + 1)

/-- `s.split(sep, 1)`: the part before the first occurrence of `sep`,
and—when `sep` occurs—the part after it. -/
def splitFirst (sep : Char) : Str → Str × Option Str
  | [] => ([], none)
  | c :: cs =>
    if c = sep then ([], some cs)
    else
      let p := splitFirst sep cs
      (c :: p.1, p.2)

/-- `s.split(sep)` (Python semantics: `"".split(sep) = [""]`). -/
def splitAll (sep : Char) : Str → List Str
  | [] => [[]]
  | c :: cs =>
    if c = sep then [] :: splitAll sep cs
    else
      match splitAll sep cs with
      | r :: rs => (c :: r) :: rs
      | [] => [[c]]

/-- Python's substring test `needle in hay`. -/
def strContains (hay needle : Str) : Bool :=
  hay.tails.any (fun t => needle.isPrefixOf t)

/-- `s.rfind(c)`: index of the last occurrence, if any. -/
def rfindCharIdx (sep : Char) (s : Str) : Option Nat :=
  (findCharIdx sep s.reverse).map (fun i => s.length - 1 - i)

/-- membership of a character, as a Bool (Python `c in s`). -/
def charIn (c : Char) (s : Str) : Bool := s.any (· = c)

/-! ### `urllib.parse.urlsplit` / `urlparse` / `urlunparse`

Modelled on the CPython 3.11 implementation.  The IPv6 bracket validation
of `urlsplit` (which raises `ValueError` for a netloc with unbalanced or
invalid `[`/`]` brackets) is not modelled: the embedding is total, and
theorems that quantify over arbitrary URLs carry a hypothesis keeping the
netloc bracket-free, where the two agree. -/

/-- The six components of `urlparse`'s result. -/
structure UrlParts where
  scheme : Str
  netloc : Str
  path : Str
  params : Str
  query : Str
  fragment : Str
deriving DecidableEq, Repr

/-- The sanitisation at the top of `urlsplit`: left-strip C0 controls and
space, then drop tab/CR/LF everywhere. -/
def sanitizeUrl (s : Str) : Str :=
  (s.dropWhile isC0OrSpace).filter (fun c => !isUnsafeUrlByte c)

/-- The scheme extraction of `urlsplit`: split at the first `:` when the
prefix before it is a well-formed scheme, lower-casing it. -/
def splitScheme (url : Str) : Str × Str :=
  match findCharIdx ':' url with
  | some i =>
    if 0 < i ∧ isAsciiAlpha (url.headD ' ') ∧ ((url.take i).drop 1).all isSchemeChar then
      ((url.take i).map Char.toLower, url.drop (i + 1))
    else ([], url)
  | none => ([], url)

/-- `_splitnetloc`: the netloc runs until the first of `/`, `?`, `#`. -/
def isNetlocStop (c : Char) : Bool := decide (c = '/') || decide (c = '?') || decide (c = '#')

/-- `uses_params` of `urllib.parse` (schemes for which `;params` in the
last path segment are split off by `urlparse`). -/
def usesParams : List Str :=
  ["".data, "ftp".data, "hdl".data, "prospero".data, "http".data, "imap".data,
   "https".data, "shttp".data, "rtsp".data, "rtspu".data, "sip".data,
   "sips".data, "mms".data, "sftp".data, "tel".data]

/-- `_splitparams`: split `;params` off the last path segment. -/
def splitParamsAux (url : Str) : Str × Str :=
  if charIn '/' url then
    match rfindCharIdx '/' url with
    | some k =>
      match findCharIdx ';' (url.drop k) with
      | some j => (url.take (k + j), url.drop (k + j + 1))
      | none => (url, [])
    | none => (url, [])
  else
    match splitFirst ';' url with
    | (a, some b) => (a, b)
    | (a, none) => (a, [])

/-- `urllib.parse.urlparse` (via `urlsplit`, then the `;params` split). -/
def urlparse (rawUrl : Str) : UrlParts :=
  let url := sanitizeUrl rawUrl
  let sc := splitScheme url
  let scheme := sc.1
  let rest0 := sc.2
  let nl :=
    if rest0.take 2 = "//".data then
      ((rest0.drop 2).takeWhile (fun c => !isNetlocStop c),
       (rest0.drop 2).dropWhile (fun c => !isNetlocStop c))
    else ([], rest0)
  let netloc := nl.1
  let rest1 := nl.2
  let fr := splitFirst '#' rest1
  let rest2 := fr.1
  let fragment := match fr.2 with | some f => f | none => []
  let qr := splitFirst '?' rest2
  let rest3 := qr.1
  let query := match qr.2 with | some q => q | none => []
  let pp :=
    if decide (scheme ∈ usesParams) && charIn ';' rest3 then splitParamsAux rest3
    else (rest3, [])
  ⟨scheme, netloc, pp.1, pp.2, query, fragment⟩

/-- `urllib.parse.urlunsplit`. -/
def urlunsplit (scheme netloc url query fragment : Str) : Str :=
  let url1 :=
    if netloc ≠ [] ∨ url.take 2 = "//".data then
      "//".data ++ netloc ++ (if url ≠ [] ∧ url.headD ' ' ≠ '/' then '/' :: url else url)
    else url
  let url2 := if scheme ≠ [] then scheme ++ ':' :: url1 else url1
  let url3 := if query ≠ [] then url2 ++ '?' :: query else url2
  if fragment ≠ [] then url3 ++ '#' :: fragment else url3

/-- `urllib.parse.urlunparse` (also `ParseResult.geturl`). -/
def urlunparse (u : UrlParts) : Str :=
  urlunsplit u.scheme u.netloc
    (if u.params ≠ [] then u.path ++ ';' :: u.params else u.path) u.query u.fragment

/-! ### Percent-encoding: `quote_plus`, `unquote`, and UTF-8

`urlencode` (with its default `quote_via=quote_plus` and `safe=''`) keeps
only the always-safe characters (ASCII alphanumerics and `_.-~`), turns a
space into `+`, and renders every other character as the uppercase-hex
`%XX` encoding of its UTF-8 bytes.  `parse_qsl` reverses this with
`.replace('+', ' ')` followed by `unquote`, which percent-decodes inside
maximal ASCII runs and decodes the resulting bytes as UTF-8 with
`errors='replace'` (maximal-subpart replacement policy, as in CPython's
UTF-8 decoder). -/

/-- The always-safe characters of `urllib.parse.quote`. -/
def isSafeChar (c : Char) : Bool :=
  isAsciiAlnum c || decide (c = '_') || decide (c = '.') || decide (c = '-') || decide (c = '~')

/-- Uppercase hex digit for a value below 16. -/
def hexDigitUpper (n : Nat) : Char :=
  if n < 10 then Char.ofNat (48 + n) else Char.ofNat (55 + n)

/-- `%XX` rendering of one byte (uppercase, as `quote` produces). -/
def percentByte (b : Nat) : Str := ['%', hexDigitUpper (b / 16), hexDigitUpper (b % 16)]

/-- Value of a hex digit (both cases, as in `_hextobyte`). -/
def hexDigitVal (c : Char) : Option Nat :=
  if 48 ≤ c.toNat ∧ c.toNat ≤ 57 then some (c.toNat - 48)
  else if 65 ≤ c.toNat ∧ c.toNat ≤ 70 then some (c.toNat - 55)
  else if 97 ≤ c.toNat ∧ c.toNat ≤ 102 then some (c.toNat - 87)
  else none

/-- The UTF-8 bytes of one scalar value (standard 1–4 byte encoding). -/
def utf8Bytes (c : Char) : List Nat :=
  let v := c.toNat
  if v < 128 then [v]
  else if v < 2048 then [192 + v / 64, 128 + v % 64]
  else if v < 65536 then [224 + v / 4096, 128 + (v / 64) % 64, 128 + v % 64]
  else [240 + v / 262144, 128 + (v / 4096) % 64, 128 + (v / 64) % 64, 128 + v % 64]

/-- `quote_plus` on a single character, with `safe=''`. -/
def quotePlusChar (c : Char) : Str :=
  if c = ' ' then ['+']
  else if isSafeChar c then [c]
  else (utf8Bytes c).flatMap percentByte

/-- `urllib.parse.quote_plus` with `safe=''` (what `urlencode` applies to
every key and value). -/
def quote_plus (s : Str) : Str := s.flatMap quotePlusChar

/-- A UTF-8 continuation byte (`0x80`–`0xBF`). -/
def isContByte (b : Nat) : Bool := decide (128 ≤ b ∧ b ≤ 191)

/-- Admissible second byte of a three-byte sequence (CPython's decoder:
`E0` requires `A0`–`BF`, `ED` requires `80`–`9F`, others a plain
continuation byte; this excludes overlong forms and surrogates). -/
def cont3Ok (b b1 : Nat) : Bool :=
  if b = 224 then decide (160 ≤ b1 ∧ b1 ≤ 191)
  else if b = 237 then decide (128 ≤ b1 ∧ b1 ≤ 159)
  else isContByte b1

/-- Admissible second byte of a four-byte sequence (`F0` requires
`90`–`BF`, `F4` requires `80`–`8F`). -/
def cont4Ok (b b1 : Nat) : Bool :=
  if b = 240 then decide (144 ≤ b1 ∧ b1 ≤ 191)
  else if b = 244 then decide (128 ≤ b1 ∧ b1 ≤ 143)
  else isContByte b1

/-- `U+FFFD`, the replacement character. -/
def replacementChar : Char := Char.ofNat 65533

/-- UTF-8 decoding with `errors='replace'`: invalid data becomes one
replacement character per maximal subpart, as in CPython's decoder. -/
def utf8DecodeReplace : List Nat → List Char
  | [] => []
  | b :: bs =>
    if b < 128 then Char.ofNat b :: utf8DecodeReplace bs
    else if 194 ≤ b ∧ b ≤ 223 then
      match bs with
      | [] => [replacementChar]
      | b1 :: bs1 =>
        if isContByte b1 then
          Char.ofNat ((b - 192) * 64 + (b1 - 128)) :: utf8DecodeReplace bs1
        else replacementChar :: utf8DecodeReplace (b1 :: bs1)
    else if 224 ≤ b ∧ b ≤ 239 then
      match bs with
      | [] => [replacementChar]
      | b1 :: bs1 =>
        if cont3Ok b b1 then
          match bs1 with
          | [] => [replacementChar]
          | b2 :: bs2 =>
            if isContByte b2 then
              Char.ofNat ((b - 224) * 4096 + (b1 - 128) * 64 + (b2 - 128)) ::
                utf8DecodeReplace bs2
            else replacementChar :: utf8DecodeReplace (b2 :: bs2)
        else replacementChar :: utf8DecodeReplace (b1 :: bs1)
    else if 240 ≤ b ∧ b ≤ 244 then
      match bs with
      | [] => [replacementChar]
      | b1 :: bs1 =>
        if cont4Ok b b1 then
          match bs1 with
          | [] => [replacementChar]
          | b2 :: bs2 =>
            if isContByte b2 then
              match bs2 with
              | [] => [replacementChar]
              | b3 :: bs3 =>
                if isContByte b3 then
                  Char.ofNat ((b - 240) * 262144 + (b1 - 128) * 4096 +
                      (b2 - 128) * 64 + (b3 - 128)) :: utf8DecodeReplace bs3
                else replacementChar :: utf8DecodeReplace (b3 :: bs3)
            else replacementChar :: utf8DecodeReplace (b2 :: bs2)
        else replacementChar :: utf8DecodeReplace (b1 :: bs1)
    else replacementChar :: utf8DecodeReplace bs
termination_by l => l.length
decreasing_by all_goals first | (simp_all; omega) | simp_all

/-- `unquote_to_bytes` restricted to one ASCII run: literal characters
become their code points, valid `%XX` groups become bytes, and a `%` not
followed by two hex digits stays literal. -/
def percentRunToBytes : Str → List Nat
  | [] => []
  | '%' :: a :: b :: rest =>
    match hexDigitVal a, hexDigitVal b with
    | some ha, some hb => (ha * 16 + hb) :: percentRunToBytes rest
    | _, _ => 37 :: percentRunToBytes (a :: b :: rest)
  | c :: rest => c.toNat :: percentRunToBytes rest

/-- Process one maximal ASCII run through percent-decoding + UTF-8. -/
def flushAsciiRun (run : Str) : Str := utf8DecodeReplace (percentRunToBytes run)

/-- The run-splitting loop of `unquote`: `%XX` decoding happens inside
maximal ASCII runs only; non-ASCII characters pass through literally. -/
def unquoteAux (acc : Str) : Str → Str
  | [] => flushAsciiRun acc
  | c :: cs =>
    if isAsciiChar c then unquoteAux (acc ++ [c]) cs
    else flushAsciiRun acc ++ c :: unquoteAux [] cs

/-- `urllib.parse.unquote` (with the CPython shortcut for `%`-free
input, which has the same result). -/
def unquote (s : Str) : Str :=
  if charIn '%' s then unquoteAux [] s else s

/-- The key/value decoding of `parse_qsl`:
`unquote(text.replace('+', ' '))`. -/
def unquotePlus (s : Str) : Str :=
  unquote (s.map (fun c => if c = '+' then ' ' else c))

/-! ### `parse_qsl` / `parse_qs` / `urlencode`

`parse_qs` returns a Python `dict` keyed by decoded parameter name, with
the list of decoded values per name; it is modelled as an insertion-ordered
association list with unique keys, which is exactly a Python 3.7+ dict.
Defaults are as the scraper calls them: `keep_blank_values=False`,
`strict_parsing=False`, `separator='&'`, `doseq=True` for `urlencode`. -/

/-- A Python dict from parameter name to list of values. -/
abbrev QDict := List (Str × List Str)

/-- The body of `parse_qsl`'s loop on one `name=value` chunk: skip an
empty chunk, skip a chunk without `=` (`strict_parsing=False`) or with an
empty raw value (`keep_blank_values=False`), and decode both sides with
`replace('+',' ')` + `unquote`. -/
def parseChunk (nv : Str) : Option (Str × Str) :=
  if nv = [] then none
  else
    match splitFirst '=' nv with
    | (_, none) => none
    | (name, some value) =>
      if value = [] then none
      else some (unquotePlus name, unquotePlus value)

/-- `urllib.parse.parse_qsl`: split the query on `&` and process each
chunk (`"".split('&')` is avoided by the `if qs` guard, as in CPython). -/
def parse_qsl (qs : Str) : List (Str × Str) :=
  (if qs = [] then [] else splitAll '&' qs).filterMap parseChunk

/-- Appending one `(name, value)` pair to the dict being built by
`parse_qs` (append to the existing entry, else insert at the end). -/
def qdictAdd (d : QDict) (k : Str) (v : Str) : QDict :=
  match d with
  | [] => [(k, [v])]
  | (k', vs) :: rest => if k' = k then (k', vs ++ [v]) :: rest else (k', vs) :: qdictAdd rest k v

/-- Grouping the pairs of `parse_qsl` into a dict. -/
def groupPairs (l : List (Str × Str)) : QDict :=
  l.foldl (fun d p => qdictAdd d p.1 p.2) []

/-- `urllib.parse.parse_qs`. -/
def parse_qs (qs : Str) : QDict := groupPairs (parse_qsl qs)

/-- Python `dict.pop(k, None)`: drop the entry for `k`, if present. -/
def qdictPop (d : QDict) (k : Str) : QDict := d.filter (fun e => decide (e.1 ≠ k))

/-- Python `d[k] = vs`: replace in place when the key exists, otherwise
append at the end. -/
def qdictSet (d : QDict) (k : Str) (vs : List Str) : QDict :=
  if d.any (fun e => decide (e.1 = k)) then
    d.map (fun e => if e.1 = k then (k, vs) else e)
  else d ++ [(k, vs)]

/-- Python `k in d` / `d[k]` on the dict model. -/
def qdictGet? (d : QDict) (k : Str) : Option (List Str) :=
  (d.find? (fun e => decide (e.1 = k))).map (fun e => e.2)

/-- The flat `(name, value)` sequence in which `urlencode(·, doseq=True)`
emits a dict of string lists. -/
def qdictPairs (d : QDict) : List (Str × Str) :=
  d.flatMap (fun e => e.2.map (fun v => (e.1, v)))

/-- Python's `sep.join(parts)` for a single-character separator. -/
def joinSep (sep : Char) : List Str → Str
  | [] => []
  | [x] => x
  | x :: xs => x ++ sep :: joinSep sep xs

/-- `urllib.parse.urlencode(query, doseq=True)` on a dict of string
lists: one `quoted-key=quoted-value` chunk per value, joined by `&`. -/
def urlencode (d : QDict) : Str :=
  joinSep '&' ((qdictPairs d).map (fun p => quote_plus p.1 ++ '=' :: quote_plus p.2))

/-! ### `amazon_scraper.py` — `AmazonScraper`

`requests.head(url, allow_redirects=True)` is modelled by an oracle
`resolve : Str → Option Str`: `some u` is the final `response.url` after a
successful redirect chain, `none` a raised `RequestException`. -/

/-- The default affiliate tag of `AmazonScraper.__init__`. -/
def defaultAffiliateTag : Str := "budgetlooks08-21".data

/-- `AmazonScraper.supported_domains`. -/
def supported_domains : List Str :=
  ["amazon.com".data, "amazon.in".data, "amazon.co.uk".data, "amazon.ca".data,
   "amazon.de".data, "amazon.fr".data, "amazon.it".data, "amazon.es".data,
   "amzn.to".data, "a.co".data]

/-- `supported_domains` minus the shortened domains, i.e. the generator
filter `d not in ['amzn.to', 'a.co']` on line 201. -/
def supportedNonShort : List Str :=
  ["amazon.com".data, "amazon.in".data, "amazon.co.uk".data, "amazon.ca".data,
   "amazon.de".data, "amazon.fr".data, "amazon.it".data, "amazon.es".data]

/-- The path marker `dp/`. -/
def dpMarker : Str := "dp/".data

/-- The path marker `gp/product/`. -/
def gpProductMarker : Str := "gp/product/".data

/-- One attempt of `re.search(r'(?:dp|gp/product)/([A-Z0-9]{10})', path)`
at the head of the string: try the alternative `dp` first, then
`gp/product`, each followed by `/` and exactly ten `[A-Z0-9]`. -/
def matchAsinAt (s : Str) : Option Str :=
  if dpMarker.isPrefixOf s then
    let t := (s.drop 3).take 10
    if t.length = 10 ∧ t.all isUpperAlnum then some t else none
  else if gpProductMarker.isPrefixOf s then
    let t := (s.drop 11).take 10
    if t.length = 10 ∧ t.all isUpperAlnum then some t else none
  else none

/-- `re.search` of the ASIN pattern: leftmost match wins. -/
def asinSearch : Str → Option Str
  | [] => none
  | c :: cs =>
    match matchAsinAt (c :: cs) with
    | some t => some t
    | none => asinSearch cs

/-- The keys looked up in the query string by `_get_asin_from_url`. -/
def asinKeyUpper : Str := "ASIN".data

/-- The lowercase variant of the looked-up key. -/
def asinKeyLower : Str := "asin".data

/-- `AmazonScraper._get_asin_from_url` (lines 26–44): path-pattern search
first, then the query parameters `ASIN` and `asin` in that order.  (The
`[0]` index is total here: `parse_qs` never produces an empty value
list, see `parse_qs_values_ne_nil`.) -/
def get_asin_from_url (url : Str) : Option Str :=
  let parsed := urlparse url
  match asinSearch parsed.path with
  | some m => some m
  | none =>
    let query_params := parse_qs parsed.query
    match qdictGet? query_params asinKeyUpper with
    | some vs => some (vs.headD [])
    | none =>
      match qdictGet? query_params asinKeyLower with
      | some vs => some (vs.headD [])
      | none => none

/-- The shortened-domain test on lines 52 and 188:
`"amzn.to" in domain or "a.co" in domain`. -/
def isShortenedDomain (domain : Str) : Bool :=
  strContains domain ("amzn.to".data) || strContains domain ("a.co".data)

/-- `AmazonScraper._clean_amazon_url` (lines 46–78).  `resolve` models the
redirect-following `requests.head`; on `none` (a `RequestException`) the
function proceeds with the original parse. -/
def clean_amazon_url (resolve : Str → Option Str) (url : Str) : Str :=
  let parsed0 := urlparse url
  let parsed :=
    if isShortenedDomain parsed0.netloc then
      match resolve url with
      | some finalUrl => urlparse finalUrl
      | none => parsed0
    else parsed0
  if !(supported_domains.any (fun d => strContains parsed.netloc d)) then url
  else
    match get_asin_from_url (urlunparse parsed) with
    | some asin =>
      urlunparse { parsed with path := "/dp/".data ++ asin, query := [], fragment := [] }
    | none => url

/-- The affiliate/tracking key `tag` (lines 207 and 212). -/
def tagKey : Str := "tag".data

/-- The removed tracking key `ref_` (line 208). -/
def refUnderscoreKey : Str := "ref_".data

/-- The removed tracking key `th` (line 209). -/
def thKey : Str := "th".data

/-- `AmazonScraper.generate_affiliate_link` (lines 182–232). -/
def generate_affiliate_link (resolve : Str → Option Str) (affiliateTag : Str)
    (originalUrl0 : Str) : Str :=
  let parsed0 := urlparse originalUrl0
  let st :=
    if isShortenedDomain parsed0.netloc then
      match resolve originalUrl0 with
      | some u => (u, urlparse u)
      | none => (originalUrl0, parsed0)
    else (originalUrl0, parsed0)
  let originalUrl := st.1
  let parsed := st.2
  if !(supportedNonShort.any (fun d => strContains parsed.netloc d)) then originalUrl
  else
    let qp0 := parse_qs parsed.query
    let qp1 := qdictPop qp0 tagKey
    let qp2 := qdictPop qp1 refUnderscoreKey
    let qp3 := qdictPop qp2 thKey
    let query_params := qdictSet qp3 tagKey [affiliateTag]
    let asin := get_asin_from_url originalUrl
    let base_url :=
      match asin with
      | some a =>
        urlunparse { parsed with path := "/dp/".data ++ a, query := [], fragment := [] }
      | none => urlunparse { parsed with query := [], fragment := [] }
    let new_query := urlencode query_params
    if new_query ≠ [] then base_url ++ '?' :: new_query else base_url

/-- The result record of `extract_product_info`. -/
structure ProductInfo where
  title : Option Str
  image_url : Option Str
  price : Option Str
deriving DecidableEq, Repr

/-- `AmazonScraper.extract_product_info` (lines 80–180).  `fetch` models
`requests.get` + `raise_for_status` (`none` = timeout, connection error
or non-2xx); `scrape` models the BeautifulSoup field extraction of lines
99–173 on the fetched page body, whose details live in the external HTML
library and are irrelevant to the fetch-failure claims; the surrounding
`try/except RequestException` is the explicit `match` below. -/
def extract_product_info (resolve : Str → Option Str) (fetch : Str → Option Str)
    (scrape : Str → Str → ProductInfo) (url : Str) : ProductInfo :=
  let effective_url := clean_amazon_url resolve url
  match fetch effective_url with
  | none => { title := none, image_url := none, price := none }
  | some page => scrape effective_url page

/-! ### `url_shortener.py` — `URLShortener.shorten_url` -/

/-- Python's `str.strip()` on the whitespace the shortener APIs can
produce (ASCII whitespace; Python also strips rarer Unicode space
characters, which no claim exercises). -/
def isPyWhitespace (c : Char) : Bool :=
  decide (c.toNat = 32) || decide (c.toNat = 9) || decide (c.toNat = 10) ||
  decide (c.toNat = 13) || decide (c.toNat = 11) || decide (c.toNat = 12)

/-- `response.text.strip()`. -/
def pyStrip (s : Str) : Str :=
  ((s.dropWhile isPyWhitespace).reverse.dropWhile isPyWhitespace).reverse

/-- The TinyURL API endpoint built on line 16. -/
def tinyurlApi (longUrl : Str) : Str := "http://tinyurl.com/api-create.php?url=".data ++ longUrl

/-- The is.gd API endpoint built on line 30. -/
def isgdApi (longUrl : Str) : Str := "https://is.gd/create.php?format=simple&url=".data ++ longUrl

/-- `short_url.startswith('http')`. -/
def startsWithHttp (s : Str) : Bool := ("http".data).isPrefixOf s

/-- `URLShortener.shorten_url` (lines 10–44).  `get` models
`requests.get` + `raise_for_status` on the two provider endpoints. -/
def shorten_url (get : Str → Option Str) (longUrl : Str) : Str :=
  let second :=
    match get (isgdApi longUrl) with
    | some body => if startsWithHttp (pyStrip body) then pyStrip body else longUrl
    | none => longUrl
  match get (tinyurlApi longUrl) with
  | some body => if startsWithHttp (pyStrip body) then pyStrip body else second
  | none => second

/-- Provider 1 (TinyURL) fails: network error, non-2xx, or a body that
does not strip to something starting with `http`. -/
def firstProviderFails (get : Str → Option Str) (u : Str) : Prop :=
  get (tinyurlApi u) = none ∨
    ∃ b, get (tinyurlApi u) = some b ∧ startsWithHttp (pyStrip b) = false

/-- Provider 2 (is.gd) fails in the same sense. -/
def secondProviderFails (get : Str → Option Str) (u : Str) : Prop :=
  get (isgdApi u) = none ∨
    ∃ b, get (isgdApi u) = some b ∧ startsWithHttp (pyStrip b) = false

/-! ### `simple_bot.py` — `is_amazon_url`

Each regex of `amazon_url_patterns` is hand-compiled to an extensionally
equivalent Boolean search (for a Boolean `re.search` result, greedy
quantifiers and an existential search over split points agree). -/

/-- `https?://` at the head: `http`, optional `s`, `://`. -/
def httpSchemeAt (s : Str) : Option Str :=
  if ("https://".data).isPrefixOf s then some (s.drop 8)
  else if ("http://".data).isPrefixOf s then some (s.drop 7)
  else none

/-- Optional `www.` prefix. -/
def skipWww (s : Str) : Str := if ("www.".data).isPrefixOf s then s.drop 4 else s

/-- `[a-z.]` (the TLD class in the bot's regexes). -/
def isLowerOrDot (c : Char) : Bool := isLowerAlpha c || decide (c = '.')

/-- `amazon\.[a-z.]{2,6}/`: after `amazon.`, some 2–6 characters from
`[a-z.]` followed by `/`; returns each possible remainder after the `/`. -/
def amazonTldSplits (s : Str) : List Str :=
  if ("amazon.".data).isPrefixOf s then
    let t := s.drop 7
    ([2, 3, 4, 5, 6].filterMap (fun k =>
      if (t.take k).length = k ∧ (t.take k).all isLowerOrDot ∧ (t.drop k).headD ' ' = '/' then
        some (t.drop (k + 1))
      else none))
  else []

/-- `(?:dp|gp/product)/([A-Z0-9]{10})` at the head of a string. -/
def dpAsinAt (s : Str) : Bool :=
  match matchAsinAt s with
  | some _ => true
  | none => false

/-- `(?:[^/]+/)*` followed by `dp/ASIN` or `gp/product/ASIN`: search over
the segment split points. -/
def segsThenAsin (s : Str) : Bool :=
  (List.range (s.length + 1)).any (fun j =>
    (decide (j = 0) || (decide ((s.take j).all (fun c => decide (c ≠ '/'))) &&
        decide (j ≤ s.length) && decide ((s.drop j).headD ' ' = '/')))
    && dpAsinAt (if j = 0 then s else s.drop (j + 1)))

/-- Pattern 1: `https?://(?:www\.)?amazon\.[a-z.]{2,6}/(?:[^/]+/)?(?:dp|gp/product)/([A-Z0-9]{10})`
matched at one starting position. -/
def pat1At (s : Str) : Bool :=
  match httpSchemeAt s with
  | some r =>
    (amazonTldSplits (skipWww r)).any (fun rest =>
      dpAsinAt rest ||
        (List.range rest.length).any (fun j =>
          decide (1 ≤ j) && decide ((rest.take j).all (fun c => decide (c ≠ '/'))) &&
          decide ((rest.drop j).headD ' ' = '/') && dpAsinAt (rest.drop (j + 1))))
  | none => false

/-- Pattern 2: `https?://amzn\.to/[a-zA-Z0-9]+` at one position. -/
def pat2At (s : Str) : Bool :=
  match httpSchemeAt s with
  | some r =>
    ("amzn.to/".data).isPrefixOf r && isAsciiAlnum ((r.drop 8).headD ' ')
  | none => false

/-- Pattern 3: `https?://a\.co/[a-zA-Z0-9]+` at one position. -/
def pat3At (s : Str) : Bool :=
  match httpSchemeAt s with
  | some r => ("a.co/".data).isPrefixOf r && isAsciiAlnum ((r.drop 5).headD ' ')
  | none => false

/-- Pattern 4: `https?://(?:www\.)?amazon\.[a-z.]{2,6}/(?:[^/]+/)*dp/([A-Z0-9]{10})`
at one position. -/
def pat4At (s : Str) : Bool :=
  match httpSchemeAt s with
  | some r => (amazonTldSplits (skipWww r)).any segsThenAsin
  | none => false

/-- Pattern 5 (catch-all): `https?://(?:www\.)?amazon\.[a-z.]{2,6}/[^\s]+`
at one position. -/
def pat5At (s : Str) : Bool :=
  match httpSchemeAt s with
  | some r =>
    (amazonTldSplits (skipWww r)).any (fun rest => !isPyWhitespace (rest.headD ' ') && rest ≠ [])
  | none => false

/-- Pattern 6: `([A-Z0-9]{10})` at one position. -/
def pat6At (s : Str) : Bool :=
  (s.take 10).length = 10 && (s.take 10).all isUpperAlnum

/-- `re.search(pattern, text)` as a Boolean: some starting position matches. -/
def reSearch (patAt : Str → Bool) (text : Str) : Bool := text.tails.any patAt

/-- The `amazon_url_patterns` list (lines 214–227), as positional matchers. -/
def amazonUrlPatterns : List (Str → Bool) :=
  [pat1At, pat2At, pat3At, pat4At, pat5At, pat6At]

/-- `re.match(r'^[A-Z0-9]{10}$', text)`. -/
def tenCharExact (text : Str) : Bool := text.length = 10 && text.all isUpperAlnum

/-- `re.match(r'[a-z]', text)`: the first character is a lowercase letter. -/
def startsLower (text : Str) : Bool := isLowerAlpha (text.headD 'A')

/-- `re.match(r'https?://', text)`. -/
def startsHttpUrl (text : Str) : Bool :=
  ("http://".data).isPrefixOf text || ("https://".data).isPrefixOf text

/-- The `for pattern in amazon_url_patterns` loop of `is_amazon_url`
(lines 229–237): on a matching pattern, return `True` when the text is a
pure uppercase-alphanumeric ASIN or starts like a URL, else keep looping. -/
def isAmazonLoop (text : Str) : List (Str → Bool) → Bool
  | [] => false
  | p :: ps =>
    if reSearch p text then
      if tenCharExact text && !startsLower text then true
      else if startsHttpUrl text then true
      else isAmazonLoop text ps
    else isAmazonLoop text ps

/-- `simple_bot.is_amazon_url` (lines 212–237). -/
def is_amazon_url (text : Str) : Bool := isAmazonLoop text amazonUrlPatterns

/-! ### Well-formedness predicates for URL components

Components obtained from a real `urlparse` of an ordinary URL satisfy
these; theorems that rebuild URLs from components state them as
hypotheses, and witnesses discharge them by `decide`. -/

/-- No tab/CR/LF (which `urlsplit` would remove). -/
abbrev CleanStr (s : Str) : Prop := ∀ c ∈ s, isUnsafeUrlByte c = false

/-- A scheme as `urlsplit` itself produces: empty, or lower-case,
starting with an ASCII letter, continuing with scheme characters. -/
abbrev SchemeOk (s : Str) : Prop :=
  s = [] ∨
    (isAsciiAlpha (s.headD ' ') = true ∧ (s.drop 1).all isSchemeChar = true ∧
      s.map Char.toLower = s ∧ charIn ':' s = false ∧ CleanStr s)

/-- A netloc with no component delimiters, no removed bytes, and no
IPv6 brackets (see the note on `urlparse`). -/
abbrev NetlocOk (n : Str) : Prop :=
  (∀ c ∈ n, isNetlocStop c = false ∧ isUnsafeUrlByte c = false) ∧
    charIn '[' n = false ∧ charIn ']' n = false

/-- A path as it appears after a netloc: empty or slash-initial, free of
`?`, `#`, `;` and removed bytes. -/
abbrev PathOk (p : Str) : Prop :=
  (p = [] ∨ p.headD ' ' = '/') ∧ charIn '?' p = false ∧ charIn '#' p = false ∧
    charIn ';' p = false ∧ CleanStr p

/-- A query free of `#` and removed bytes. -/
abbrev QueryOk (q : Str) : Prop := charIn '#' q = false ∧ CleanStr q

/-- A `;params` component free of `?`, `#` and removed bytes (as
`urlparse` itself produces it). -/
abbrev ParamsOk (pr : Str) : Prop :=
  charIn '?' pr = false ∧ charIn '#' pr = false ∧ CleanStr pr

/-- The URL shape `scheme://netloc/path?query` that
`generate_affiliate_link` emits (`urlunsplit` on empty params/fragment,
then the manual `?` concatenation). -/
def buildUrl (s n p q : Str) : Str :=
  (if s = [] then [] else s ++ [':']) ++ "//".data ++ n ++ p ++
    (if q = [] then [] else '?' :: q)

/-- The decoded `(name, value)` pairs of a URL's query string. -/
def urlQueryPairs (u : Str) : List (Str × Str) := parse_qsl (urlparse u).query

/-- The query dict after the removal set is popped (lines 206–209). -/
def strippedQP (q : Str) : QDict :=
  qdictPop (qdictPop (qdictPop (parse_qs q) tagKey) refUnderscoreKey) thKey

/-- The final query dict of `generate_affiliate_link` (line 212). -/
def processedQP (q tag : Str) : QDict := qdictSet (strippedQP q) tagKey [tag]

/-! ### Concrete inputs and oracles used by witnesses -/

/-- A redirect oracle in which every request raises. -/
def noResolve : Str → Option Str := fun _ => none

/-- A redirect oracle that reports each URL as its own final URL, i.e.
treats its input as already canonical. -/
def selfResolve : Str → Option Str := fun u => some u

/-- The example input of the spec (§8). -/
def exInputC1 : Str := "https://amazon.in/dp/B08N5WRWNW?ref=xyz&tag=old-20".data

/-- The output the spec's example promises. -/
def claimedOutputC1 : Str := "https://amazon.in/dp/B08N5WRWNW?tag=budgetlooks08-21".data

/-- The output the code actually produces on the example. -/
def actualOutputC1 : Str := "https://amazon.in/dp/B08N5WRWNW?ref=xyz&tag=budgetlooks08-21".data

/-- The example input with a `;params` suffix on the last path segment. -/
def exInputC1b : Str := "https://amazon.in/dp/B08N5WRWNW;x?ref=xyz".data

/-- The code's output for `exInputC1b`: the `;x` params component and
the `ref=xyz` query parameter both survive the rewrite. -/
def actualOutputC1b : Str :=
  "https://amazon.in/dp/B08N5WRWNW;x?ref=xyz&tag=budgetlooks08-21".data

/-- A supported-domain URL carrying all three removal-set keys. -/
def exUrlC2 : Str := "https://www.amazon.com/Nice-Product/dp/B07XYZ1234?th=1&ref_=aa&keep=1&tag=old".data

/-- A URL on no supported domain. -/
def exUrlC3 : Str := "https://example.com/page?tag=old".data

/-- A `gp/product/` URL. -/
def exUrlC4 : Str := "https://www.amazon.com/gp/product/B000000001?x=1".data

/-- A URL whose identifier sits in a mixed-capitalisation query key. -/
def exUrlC5 : Str := "https://amazon.in/product?Asin=B08N5WRWNW".data

/-- A URL whose identifier sits in the exact query key `ASIN`. -/
def exUrlC5b : Str := "https://amazon.in/somepage?ASIN=B000123456".data

/-- An already-rewritten affiliate link (the code's own output for
`exInputC1` with the default tag). -/
def exUrlC6 : Str := "https://amazon.in/dp/B08N5WRWNW?ref=xyz&tag=budgetlooks08-21".data

/-- A shortened-domain URL. -/
def exUrlC7 : Str := "https://amzn.to/3xYzAb".data

/-- A plain product URL. -/
def exUrlC8 : Str := "https://amazon.in/dp/B08N5WRWNW".data

/-- A long URL to shorten. -/
def exLongUrlC9 : Str := "https://amazon.in/dp/B08N5WRWNW?tag=budgetlooks08-21".data

/-- A TinyURL response body (with surrounding whitespace to strip). -/
def exBodyC9a : Str := "  https://tinyurl.com/abc  ".data

/-- An is.gd response body. -/
def exBodyC9b : Str := "https://is.gd/xyz".data

/-- An error body that does not look like a URL. -/
def exErrBodyC9 : Str := "ERROR".data

/-- Shortener oracle: TinyURL answers with a valid short URL. -/
def getC9first : Str → Option Str :=
  fun u => if u = tinyurlApi exLongUrlC9 then some exBodyC9a else none

/-- Shortener oracle: TinyURL answers garbage, is.gd answers a URL. -/
def getC9second : Str → Option Str :=
  fun u =>
    if u = tinyurlApi exLongUrlC9 then some exErrBodyC9
    else if u = isgdApi exLongUrlC9 then some exBodyC9b else none

/-- Shortener oracle: every provider raises. -/
def getC9fail : Str → Option Str := fun _ => none

/-- A page-fetch oracle in which every request fails. -/
def fetchFail : Str → Option Str := fun _ => none

/-- An arbitrary concrete field-extraction behaviour (the theorem holds
for every such function). -/
def anyScrape : Str → Str → ProductInfo :=
  fun _ _ => { title := some ('t' :: []), image_url := some ('i' :: []), price := some ('p' :: []) }

/-- A non-Amazon URL containing a ten-character uppercase run. -/
def exTextC10a : Str := "https://randomsite.org/file/XYZ0123456".data

/-- A bare ASIN-like text. -/
def exTextC10b : Str := "B08N5WRWNW".data

/-- Proof scaffolding: `quote_plus` followed by the `+`-to-space
replacement of `parse_qsl`, computed per character. -/
def semiQuoteChar (c : Char) : Str :=
  if c = ' ' then [' ']
  else if isSafeChar c then [c]
  else (utf8Bytes c).flatMap percentByte

/-- Proof scaffolding: `semiQuoteChar` over a whole string. -/
def semiQuote (s : Str) : Str := s.flatMap semiQuoteChar

/-- The extracted identifier, when there is one, consists of `[A-Z0-9]`
characters (true whenever it came from the path pattern; an identifier
taken from a query parameter may in principle contain arbitrary text, in
which case the code can emit a malformed URL — theorems about the
rewritten URL's shape assume this well-behavedness). -/
def AsinCharsOk (url : Str) : Bool :=
  match get_asin_from_url url with
  | some a => a.all isUpperAlnum
  | none => true

/-! ## Lemmas about the string utilities -/

theorem charIn_iff {c : Char} {s : Str} : charIn c s = true ↔ c ∈ s := by
  simp [charIn, List.any_eq_true]

theorem charIn_eq_false_iff {c : Char} {s : Str} : charIn c s = false ↔ c ∉ s := by
  rw [← Bool.not_eq_true, charIn_iff]

theorem splitFirst_of_not_mem {sep : Char} {s : Str} (h : sep ∉ s) :
    splitFirst sep s = (s, none) := by
  induction s with
  | nil => rfl
  | cons c cs ih =>
    have hc : ¬c = sep := fun hh => h (hh ▸ List.mem_cons_self c cs)
    have hcs : sep ∉ cs := fun hm => h (List.mem_cons_of_mem _ hm)
    simp [splitFirst, hc, ih hcs]

theorem splitFirst_append {sep : Char} {a b : Str} (h : sep ∉ a) :
    splitFirst sep (a ++ sep :: b) = (a, some b) := by
  induction a with
  | nil => simp [splitFirst]
  | cons c cs ih =>
    have hc : ¬c = sep := fun hh => h (hh ▸ List.mem_cons_self c cs)
    have hcs : sep ∉ cs := fun hm => h (List.mem_cons_of_mem _ hm)
    simp [splitFirst, hc, ih hcs]

theorem splitAll_of_not_mem {sep : Char} {s : Str} (h : sep ∉ s) :
    splitAll sep s = [s] := by
  induction s with
  | nil => rfl
  | cons c cs ih =>
    have hc : ¬c = sep := fun hh => h (hh ▸ List.mem_cons_self c cs)
    have hcs : sep ∉ cs := fun hm => h (List.mem_cons_of_mem _ hm)
    simp [splitAll, hc, ih hcs]

theorem splitAll_append {sep : Char} {a r : Str} (h : sep ∉ a) :
    splitAll sep (a ++ sep :: r) = a :: splitAll sep r := by
  induction a with
  | nil => simp [splitAll]
  | cons c cs ih =>
    have hc : ¬c = sep := fun hh => h (hh ▸ List.mem_cons_self c cs)
    have hcs : sep ∉ cs := fun hm => h (List.mem_cons_of_mem _ hm)
    simp only [List.cons_append, splitAll, hc, if_false, List.append_eq]
    rw [ih hcs]

theorem splitAll_joinSep {sep : Char} {parts : List Str} (hne : parts ≠ [])
    (h : ∀ p ∈ parts, sep ∉ p) :
    splitAll sep (joinSep sep parts) = parts := by
  induction parts with
  | nil => exact absurd rfl hne
  | cons p ps ih =>
    cases ps with
    | nil => simpa [joinSep] using splitAll_of_not_mem (h p (List.mem_cons_self p []))
    | cons p2 ps2 =>
      have hp : sep ∉ p := h p (List.mem_cons_self _ _)
      have hrest : ∀ x ∈ p2 :: ps2, sep ∉ x := fun x hx => h x (List.mem_cons_of_mem _ hx)
      have : joinSep sep (p :: p2 :: ps2) = p ++ sep :: joinSep sep (p2 :: ps2) := rfl
      rw [this, splitAll_append hp, ih (by simp) hrest]

theorem joinSep_ne_nil {sep : Char} {x : Str} {parts : List Str}
    (hx : x ∈ parts) (hxne : x ≠ []) : joinSep sep parts ≠ [] := by
  induction parts with
  | nil => cases hx
  | cons p ps ih =>
    cases ps with
    | nil =>
      simp only [List.mem_singleton] at hx
      simpa [joinSep, hx] using hxne
    | cons p2 ps2 =>
      have : joinSep sep (p :: p2 :: ps2) = p ++ sep :: joinSep sep (p2 :: ps2) := rfl
      rw [this]
      rcases p with _ | ⟨c, cs⟩ <;> simp

/-! ## Lemmas about percent-encoding -/

theorem hexDigitUpper_spec :
    ∀ x < 16, hexDigitVal (hexDigitUpper x) = some x ∧
      isAsciiChar (hexDigitUpper x) = true ∧ isSafeChar (hexDigitUpper x) = true ∧
      hexDigitUpper x ≠ '+' ∧ hexDigitUpper x ≠ '%' := by decide

theorem utf8Bytes_lt_256 {c : Char} : ∀ b ∈ utf8Bytes c, b < 256 := by
  have hv : Nat.isValidChar c.toNat := c.valid
  have hlt : c.toNat < 1114112 := by rcases hv with h | h <;> omega
  intro b hb
  by_cases h1 : c.toNat < 128
  · simp [utf8Bytes, h1] at hb; omega
  · by_cases h2 : c.toNat < 2048
    · simp [utf8Bytes, h1, h2] at hb; rcases hb with hb | hb <;> omega
    · by_cases h3 : c.toNat < 65536
      · simp [utf8Bytes, h1, h2, h3] at hb; rcases hb with hb | hb | hb <;> omega
      · simp [utf8Bytes, h1, h2, h3] at hb; rcases hb with hb | hb | hb | hb <;> omega

theorem percentRunToBytes_percentByte {b : Nat} (hb : b < 256) (t : Str) :
    percentRunToBytes (percentByte b ++ t) = b :: percentRunToBytes t := by
  have h1 := hexDigitUpper_spec (b / 16) (by omega)
  have h2 := hexDigitUpper_spec (b % 16) (by omega)
  simp only [percentByte, List.cons_append, List.nil_append, percentRunToBytes, h1.1, h2.1]
  congr 1
  omega

theorem utf8Decode_ascii {b : Nat} (bs : List Nat) (h : b < 128) :
    utf8DecodeReplace (b :: bs) = Char.ofNat b :: utf8DecodeReplace bs := by
  rw [utf8DecodeReplace.eq_def]
  simp [h]

theorem utf8Decode_two {b0 b1 : Nat} (bs : List Nat) (h0 : 194 ≤ b0 ∧ b0 ≤ 223)
    (h1 : isContByte b1 = true) :
    utf8DecodeReplace (b0 :: b1 :: bs) =
      Char.ofNat ((b0 - 192) * 64 + (b1 - 128)) :: utf8DecodeReplace bs := by
  rw [utf8DecodeReplace.eq_def]
  simp [h0, h1, show ¬b0 < 128 by omega]

theorem utf8Decode_three {b0 b1 b2 : Nat} (bs : List Nat) (h0 : 224 ≤ b0 ∧ b0 ≤ 239)
    (h1 : cont3Ok b0 b1 = true) (h2 : isContByte b2 = true) :
    utf8DecodeReplace (b0 :: b1 :: b2 :: bs) =
      Char.ofNat ((b0 - 224) * 4096 + (b1 - 128) * 64 + (b2 - 128)) :: utf8DecodeReplace bs := by
  rw [utf8DecodeReplace.eq_def]
  simp [h0, h1, h2, show ¬b0 < 128 by omega, show ¬(194 ≤ b0 ∧ b0 ≤ 223) by omega]

theorem utf8Decode_four {b0 b1 b2 b3 : Nat} (bs : List Nat) (h0 : 240 ≤ b0 ∧ b0 ≤ 244)
    (h1 : cont4Ok b0 b1 = true) (h2 : isContByte b2 = true) (h3 : isContByte b3 = true) :
    utf8DecodeReplace (b0 :: b1 :: b2 :: b3 :: bs) =
      Char.ofNat ((b0 - 240) * 262144 + (b1 - 128) * 4096 + (b2 - 128) * 64 + (b3 - 128)) ::
        utf8DecodeReplace bs := by
  rw [utf8DecodeReplace.eq_def]
  simp [h0, h1, h2, h3, show ¬b0 < 128 by omega, show ¬(194 ≤ b0 ∧ b0 ≤ 223) by omega,
    show ¬(224 ≤ b0 ∧ b0 ≤ 239) by omega]

theorem utf8Decode_utf8Bytes (c : Char) (bs : List Nat) :
    utf8DecodeReplace (utf8Bytes c ++ bs) = c :: utf8DecodeReplace bs := by
  have hv : Nat.isValidChar c.toNat := c.valid
  have hlt : c.toNat < 1114112 := by rcases hv with h | h <;> omega
  by_cases h1 : c.toNat < 128
  · rw [show utf8Bytes c = [c.toNat] by simp [utf8Bytes, h1], List.cons_append,
      List.nil_append, utf8Decode_ascii bs h1, Char.ofNat_toNat]
  · by_cases h2 : c.toNat < 2048
    · rw [show utf8Bytes c = [192 + c.toNat / 64, 128 + c.toNat % 64] by
        simp [utf8Bytes, h1, h2]]
      rw [List.cons_append, List.cons_append, List.nil_append,
        utf8Decode_two bs (by omega) (by simp [isContByte]; omega)]
      rw [show (192 + c.toNat / 64 - 192) * 64 + (128 + c.toNat % 64 - 128) = c.toNat by
        omega, Char.ofNat_toNat]
    · by_cases h3 : c.toNat < 65536
      · have hns : c.toNat < 55296 ∨ 57343 < c.toNat := by rcases hv with h | h <;> omega
        rw [show utf8Bytes c = [224 + c.toNat / 4096, 128 + c.toNat / 64 % 64,
            128 + c.toNat % 64] by simp [utf8Bytes, h1, h2, h3]]
        rw [List.cons_append, List.cons_append, List.cons_append, List.nil_append,
          utf8Decode_three bs (by omega)
            (by simp [cont3Ok, isContByte]; split <;> (try split) <;> omega)
            (by simp [isContByte]; omega)]
        rw [show (224 + c.toNat / 4096 - 224) * 4096 + (128 + c.toNat / 64 % 64 - 128) * 64 +
            (128 + c.toNat % 64 - 128) = c.toNat by omega, Char.ofNat_toNat]
      · rw [show utf8Bytes c = [240 + c.toNat / 262144, 128 + c.toNat / 4096 % 64,
            128 + c.toNat / 64 % 64, 128 + c.toNat % 64] by simp [utf8Bytes, h1, h2, h3]]
        rw [List.cons_append, List.cons_append, List.cons_append, List.cons_append,
          List.nil_append,
          utf8Decode_four bs (by omega)
            (by simp [cont4Ok, isContByte]; split <;> (try split) <;> omega)
            (by simp [isContByte]; omega) (by simp [isContByte]; omega)]
        rw [show (240 + c.toNat / 262144 - 240) * 262144 + (128 + c.toNat / 4096 % 64 - 128) *
            4096 + (128 + c.toNat / 64 % 64 - 128) * 64 + (128 + c.toNat % 64 - 128) = c.toNat
            by omega, Char.ofNat_toNat]

theorem char_eq_iff_toNat {c d : Char} : c = d ↔ c.toNat = d.toNat :=
  ⟨fun h => h ▸ rfl, fun h => by rw [← Char.ofNat_toNat c, h, Char.ofNat_toNat]⟩

theorem safeChar_facts {c : Char} (h : isSafeChar c = true) :
    isAsciiChar c = true ∧ isUnsafeUrlByte c = false := by
  simp only [isSafeChar, isAsciiAlnum, isAsciiAlpha, isLowerAlpha, isUpperAlpha, isDigitChar,
    Bool.or_eq_true, decide_eq_true_eq, char_eq_iff_toNat,
    show Char.toNat '_' = 95 from rfl, show Char.toNat '.' = 46 from rfl,
    show Char.toNat '-' = 45 from rfl, show Char.toNat '~' = 126 from rfl] at h
  simp only [isAsciiChar, isUnsafeUrlByte, Bool.or_eq_false_iff, decide_eq_true_eq,
    decide_eq_false_iff_not]
  omega

theorem quote_plus_chars {c' : Char} {s : Str} (h : c' ∈ quote_plus s) :
    isSafeChar c' = true ∨ c' = '+' ∨ c' = '%' := by
  simp only [quote_plus, List.mem_flatMap] at h
  obtain ⟨c, _, hc⟩ := h
  unfold quotePlusChar at hc
  by_cases hsp : c = ' '
  · rw [if_pos hsp] at hc
    right; left; simpa using hc
  · rw [if_neg hsp] at hc
    by_cases hsafe : isSafeChar c = true
    · rw [if_pos hsafe] at hc
      left
      rwa [List.mem_singleton.mp hc]
    · rw [if_neg hsafe] at hc
      simp only [List.mem_flatMap] at hc
      obtain ⟨b, hb, hcb⟩ := hc
      have hblt : b < 256 := utf8Bytes_lt_256 b hb
      simp only [percentByte, List.mem_cons, List.not_mem_nil, or_false] at hcb
      rcases hcb with hcb | hcb | hcb
      · right; right; exact hcb
      · subst hcb; exact Or.inl (hexDigitUpper_spec (b / 16) (by omega)).2.2.1
      · subst hcb; exact Or.inl (hexDigitUpper_spec (b % 16) (by omega)).2.2.1

theorem percentRunToBytes_cons {c : Char} (rest : Str) (h : ¬c = '%') :
    percentRunToBytes (c :: rest) = c.toNat :: percentRunToBytes rest := by
  rcases rest with _ | ⟨a, rest2⟩
  · simp [percentRunToBytes]
  · rcases rest2 with _ | ⟨b, rest3⟩
    · simp [percentRunToBytes, h]
    · simp [percentRunToBytes, h]

theorem percentRunToBytes_encBytes {bl : List Nat} (h : ∀ b ∈ bl, b < 256) (t : Str) :
    percentRunToBytes (bl.flatMap percentByte ++ t) = bl ++ percentRunToBytes t := by
  induction bl with
  | nil => simp
  | cons b bs ih =>
    simp only [List.flatMap_cons, List.append_assoc]
    rw [percentRunToBytes_percentByte (h b (List.mem_cons_self b bs)),
      ih (fun x hx => h x (List.mem_cons_of_mem _ hx))]
    rfl

theorem utf8Bytes_ne_nil (c : Char) : utf8Bytes c ≠ [] := by
  by_cases h1 : c.toNat < 128
  · simp [utf8Bytes, h1]
  · by_cases h2 : c.toNat < 2048
    · simp [utf8Bytes, h1, h2]
    · by_cases h3 : c.toNat < 65536 <;> simp [utf8Bytes, h1, h2, h3]

theorem semiQuoteChar_bytes (c : Char) (t : Str) :
    percentRunToBytes (semiQuoteChar c ++ t) = utf8Bytes c ++ percentRunToBytes t := by
  unfold semiQuoteChar
  by_cases hsp : c = ' '
  · subst hsp
    rw [if_pos rfl, show ([' '] : Str) ++ t = ' ' :: t from rfl,
      percentRunToBytes_cons t (by decide)]
    rfl
  · by_cases hsafe : isSafeChar c = true
    · rw [if_neg hsp, if_pos hsafe]
      have hpc : ¬c = '%' := fun hh => by rw [hh] at hsafe; exact absurd hsafe (by decide)
      rw [show ([c] : Str) ++ t = c :: t from rfl, percentRunToBytes_cons t hpc]
      have hlt : c.toNat < 128 := by
        have := (safeChar_facts hsafe).1
        simpa [isAsciiChar] using this
      rw [show utf8Bytes c = [c.toNat] by simp [utf8Bytes, hlt]]
      rfl
    · rw [if_neg hsp, if_neg hsafe]
      exact percentRunToBytes_encBytes (fun b hb => utf8Bytes_lt_256 b hb) t

theorem percentRunToBytes_semiQuote (s : Str) :
    percentRunToBytes (semiQuote s) = s.flatMap utf8Bytes := by
  induction s with
  | nil => rfl
  | cons c cs ih =>
    rw [show semiQuote (c :: cs) = semiQuoteChar c ++ semiQuote cs from rfl,
      semiQuoteChar_bytes, ih]
    rfl

theorem utf8Decode_flatMap (s : Str) :
    utf8DecodeReplace (s.flatMap utf8Bytes) = s := by
  induction s with
  | nil => simp [utf8DecodeReplace]
  | cons c cs ih => rw [List.flatMap_cons, utf8Decode_utf8Bytes, ih]

theorem semiQuote_ascii {c' : Char} {s : Str} (h : c' ∈ semiQuote s) :
    isAsciiChar c' = true := by
  simp only [semiQuote, List.mem_flatMap] at h
  obtain ⟨c, _, hc⟩ := h
  unfold semiQuoteChar at hc
  by_cases hsp : c = ' '
  · rw [if_pos hsp] at hc
    rw [List.mem_singleton.mp hc]
    decide
  · rw [if_neg hsp] at hc
    by_cases hsafe : isSafeChar c = true
    · rw [if_pos hsafe] at hc
      rw [List.mem_singleton.mp hc]
      exact (safeChar_facts hsafe).1
    · rw [if_neg hsafe] at hc
      simp only [List.mem_flatMap] at hc
      obtain ⟨b, hb, hcb⟩ := hc
      have hblt : b < 256 := utf8Bytes_lt_256 b hb
      simp only [percentByte, List.mem_cons, List.not_mem_nil, or_false] at hcb
      rcases hcb with hcb | hcb | hcb
      · subst hcb; decide
      · subst hcb; exact (hexDigitUpper_spec (b / 16) (by omega)).2.1
      · subst hcb; exact (hexDigitUpper_spec (b % 16) (by omega)).2.1

theorem unquoteAux_of_ascii (s : Str) (h : ∀ c ∈ s, isAsciiChar c = true) :
    ∀ acc, unquoteAux acc s = flushAsciiRun (acc ++ s) := by
  induction s with
  | nil => intro acc; simp [unquoteAux]
  | cons c cs ih =>
    intro acc
    have hc : isAsciiChar c = true := h c (List.mem_cons_self c cs)
    have hcs : ∀ x ∈ cs, isAsciiChar x = true := fun x hx => h x (List.mem_cons_of_mem _ hx)
    rw [show unquoteAux acc (c :: cs) =
        (if isAsciiChar c then unquoteAux (acc ++ [c]) cs
         else flushAsciiRun acc ++ c :: unquoteAux [] cs) from rfl,
      if_pos hc, ih hcs]
    simp

theorem semiQuote_of_no_percent {s : Str} (h : charIn '%' (semiQuote s) = false) :
    semiQuote s = s := by
  induction s with
  | nil => rfl
  | cons c cs ih =>
    have hsplit : semiQuote (c :: cs) = semiQuoteChar c ++ semiQuote cs := rfl
    rw [hsplit] at h ⊢
    rw [charIn_eq_false_iff] at h
    have h1 : '%' ∉ semiQuoteChar c := fun hm => h (List.mem_append_left _ hm)
    have h2 : charIn '%' (semiQuote cs) = false :=
      charIn_eq_false_iff.mpr (fun hm => h (List.mem_append_right _ hm))
    have hchar : semiQuoteChar c = [c] := by
      unfold semiQuoteChar
      by_cases hsp : c = ' '
      · rw [if_pos hsp, hsp]
      · rw [if_neg hsp]
        by_cases hsafe : isSafeChar c = true
        · rw [if_pos hsafe]
        · exfalso
          rw [semiQuoteChar, if_neg hsp, if_neg hsafe] at h1
          rcases hb : utf8Bytes c with _ | ⟨b, bs⟩
          · exact utf8Bytes_ne_nil c hb
          · exact h1 (by rw [hb]; simp [percentByte])
    rw [hchar, ih h2]
    rfl

theorem map_plusToSpace_quotePlusChar (c : Char) :
    (quotePlusChar c).map (fun x => if x = '+' then ' ' else x) = semiQuoteChar c := by
  unfold quotePlusChar semiQuoteChar
  by_cases hsp : c = ' '
  · rw [if_pos hsp, if_pos hsp]
    rfl
  · rw [if_neg hsp, if_neg hsp]
    by_cases hsafe : isSafeChar c = true
    · rw [if_pos hsafe]
      have hne : ¬c = '+' := fun hh => by rw [hh] at hsafe; exact absurd hsafe (by decide)
      simp [hne]
    · rw [if_neg hsafe]
      have hall : ∀ x ∈ (utf8Bytes c).flatMap percentByte, ¬x = '+' := by
        intro x hx
        simp only [List.mem_flatMap] at hx
        obtain ⟨b, hb, hxb⟩ := hx
        have hblt : b < 256 := utf8Bytes_lt_256 b hb
        simp only [percentByte, List.mem_cons, List.not_mem_nil, or_false] at hxb
        rcases hxb with hxb | hxb | hxb
        · subst hxb; decide
        · subst hxb; exact (hexDigitUpper_spec (b / 16) (by omega)).2.2.2.1
        · subst hxb; exact (hexDigitUpper_spec (b % 16) (by omega)).2.2.2.1
      calc ((utf8Bytes c).flatMap percentByte).map (fun x => if x = '+' then ' ' else x)
          = ((utf8Bytes c).flatMap percentByte).map id := by
            exact List.map_congr_left (fun x hx => by simp [hall x hx])
        _ = (utf8Bytes c).flatMap percentByte := List.map_id _

theorem map_plusToSpace_quote_plus (s : Str) :
    (quote_plus s).map (fun x => if x = '+' then ' ' else x) = semiQuote s := by
  induction s with
  | nil => rfl
  | cons c cs ih =>
    rw [show quote_plus (c :: cs) = quotePlusChar c ++ quote_plus cs from rfl,
      List.map_append, map_plusToSpace_quotePlusChar, ih]
    rfl

theorem unquotePlus_quote_plus (s : Str) : unquotePlus (quote_plus s) = s := by
  rw [unquotePlus, map_plusToSpace_quote_plus, unquote]
  by_cases hp : charIn '%' (semiQuote s) = true
  · rw [if_pos hp, unquoteAux_of_ascii _ (fun c hc => semiQuote_ascii hc) []]
    rw [show ([] : Str) ++ semiQuote s = semiQuote s from rfl, flushAsciiRun,
      percentRunToBytes_semiQuote, utf8Decode_flatMap]
  · rw [if_neg hp]
    exact semiQuote_of_no_percent (Bool.eq_false_iff.mpr hp)

/-! ## The `parse_qsl`/`urlencode` round trip -/

theorem quote_plus_not_mem {x : Char} (hx1 : isSafeChar x = false) (hx2 : ¬x = '+')
    (hx3 : ¬x = '%') (s : Str) : x ∉ quote_plus s := by
  intro h
  rcases quote_plus_chars h with h | h | h
  · rw [hx1] at h; cases h
  · exact hx2 h
  · exact hx3 h

theorem quote_plus_ne_nil {v : Str} (h : v ≠ []) : quote_plus v ≠ [] := by
  rcases v with _ | ⟨c, cs⟩
  · exact absurd rfl h
  · rw [show quote_plus (c :: cs) = quotePlusChar c ++ quote_plus cs from rfl]
    have : quotePlusChar c ≠ [] := by
      unfold quotePlusChar
      by_cases hsp : c = ' '
      · simp [hsp]
      · by_cases hsafe : isSafeChar c = true
        · simp [hsp, hsafe]
        · rw [if_neg hsp, if_neg hsafe]
          rcases hb : utf8Bytes c with _ | ⟨b, bs⟩
          · exact absurd hb (utf8Bytes_ne_nil c)
          · simp [percentByte]
    intro hh
    exact this (List.append_eq_nil.mp hh).1

theorem parseChunk_quoted (k v : Str) (hvne : v ≠ []) :
    parseChunk (quote_plus k ++ '=' :: quote_plus v) = some (k, v) := by
  have hcne : quote_plus k ++ '=' :: quote_plus v ≠ [] := by
    rcases hk : quote_plus k with _ | _ <;> simp
  have hkeq : '=' ∉ quote_plus k := quote_plus_not_mem (by decide) (by decide) (by decide) k
  rw [parseChunk, if_neg hcne, splitFirst_append hkeq]
  simp only [if_neg (quote_plus_ne_nil hvne)]
  rw [unquotePlus_quote_plus, unquotePlus_quote_plus]

theorem filterMap_all_some {α : Type} {l : List α} {f : α → Option α}
    (h : ∀ p ∈ l, f p = some p) : l.filterMap f = l := by
  induction l with
  | nil => rfl
  | cons p ps ih =>
    rw [List.filterMap_cons, h p (List.mem_cons_self p ps),
      ih (fun x hx => h x (List.mem_cons_of_mem _ hx))]

theorem amp_not_mem_chunk (p : Str × Str) :
    '&' ∉ quote_plus p.1 ++ '=' :: quote_plus p.2 := by
  intro h
  rcases List.mem_append.mp h with h | h
  · exact quote_plus_not_mem (by decide) (by decide) (by decide) p.1 h
  · rcases List.mem_cons.mp h with h | h
    · cases h
    · exact quote_plus_not_mem (by decide) (by decide) (by decide) p.2 h

theorem parse_qsl_urlencode {d : QDict} (hv : ∀ e ∈ d, ∀ v ∈ e.2, v ≠ []) :
    parse_qsl (urlencode d) = qdictPairs d := by
  have hvp : ∀ p ∈ qdictPairs d, p.2 ≠ [] := by
    intro p hp
    simp only [qdictPairs, List.mem_flatMap, List.mem_map] at hp
    obtain ⟨e, he, v, hvmem, rfl⟩ := hp
    exact hv e he v hvmem
  rcases hq : qdictPairs d with _ | ⟨p0, ps⟩
  · rw [urlencode, hq]
    rfl
  · rw [urlencode, hq, parse_qsl]
    have hchunk0 : quote_plus p0.1 ++ '=' :: quote_plus p0.2 ≠ [] := by
      rcases hk : quote_plus p0.1 with _ | _ <;> simp
    have hne : joinSep '&' ((p0 :: ps).map
        (fun p => quote_plus p.1 ++ '=' :: quote_plus p.2)) ≠ [] :=
      joinSep_ne_nil (List.mem_map_of_mem _ (List.mem_cons_self p0 ps)) hchunk0
    rw [if_neg hne,
      splitAll_joinSep (by simp)
        (by
          intro c hc
          simp only [List.mem_map] at hc
          obtain ⟨p, _, rfl⟩ := hc
          exact amp_not_mem_chunk p),
      List.filterMap_map]
    refine filterMap_all_some ?_
    intro p hp
    have hpv : p.2 ≠ [] := hvp p (hq ▸ hp)
    simpa using parseChunk_quoted p.1 p.2 hpv

/-! ## Nonemptiness facts and dict lemmas -/

theorem percentRunToBytes_ne_nil : ∀ {l : Str}, l ≠ [] → percentRunToBytes l ≠ [] := by
  intro l hl
  rcases l with _ | ⟨c, _ | ⟨a, _ | ⟨b, rest⟩⟩⟩
  · exact absurd rfl hl
  · simp [percentRunToBytes]
  · by_cases hc : c = '%'
    · subst hc; simp [percentRunToBytes]
    · rw [percentRunToBytes_cons _ hc]; simp
  · by_cases hc : c = '%'
    · subst hc
      rcases ha : hexDigitVal a with _ | ha' <;> rcases hb2 : hexDigitVal b with _ | hb' <;>
        simp [percentRunToBytes, ha, hb2]
    · rw [percentRunToBytes_cons _ hc]; simp

theorem utf8DecodeReplace_ne_nil : ∀ {l : List Nat}, l ≠ [] → utf8DecodeReplace l ≠ [] := by
  intro l hl
  rcases l with _ | ⟨b, bs⟩
  · exact absurd rfl hl
  · rw [utf8DecodeReplace.eq_def]
    repeat' split
    all_goals simp_all

theorem flushAsciiRun_ne_nil {l : Str} (h : l ≠ []) : flushAsciiRun l ≠ [] :=
  utf8DecodeReplace_ne_nil (percentRunToBytes_ne_nil h)

theorem unquoteAux_ne_nil : ∀ (s acc : Str), acc ++ s ≠ [] → unquoteAux acc s ≠ [] := by
  intro s
  induction s with
  | nil =>
    intro acc h
    rw [List.append_nil] at h
    exact flushAsciiRun_ne_nil h
  | cons c cs ih =>
    intro acc _
    rw [show unquoteAux acc (c :: cs) =
        (if isAsciiChar c then unquoteAux (acc ++ [c]) cs
         else flushAsciiRun acc ++ c :: unquoteAux [] cs) from rfl]
    by_cases hc : isAsciiChar c = true
    · rw [if_pos hc]
      exact ih (acc ++ [c]) (by simp)
    · rw [if_neg hc]
      rcases hf : flushAsciiRun acc with _ | _ <;> simp

theorem unquote_ne_nil {s : Str} (h : s ≠ []) : unquote s ≠ [] := by
  rw [unquote]
  by_cases hp : charIn '%' s = true
  · rw [if_pos hp]
    exact unquoteAux_ne_nil s [] (by simpa using h)
  · rwa [if_neg hp]

theorem unquotePlus_ne_nil {s : Str} (h : s ≠ []) : unquotePlus s ≠ [] := by
  rw [unquotePlus]
  exact unquote_ne_nil (by simpa using h)

theorem parse_qsl_values_ne_nil {qs : Str} : ∀ p ∈ parse_qsl qs, p.2 ≠ [] := by
  intro p hp
  rw [parse_qsl] at hp
  rcases List.mem_filterMap.mp hp with ⟨nv, _, hnv⟩
  rw [parseChunk] at hnv
  by_cases hne : nv = []
  · rw [if_pos hne] at hnv; cases hnv
  · rw [if_neg hne] at hnv
    rcases hs : splitFirst '=' nv with ⟨name, _ | value⟩
    · rw [hs] at hnv; cases hnv
    · rw [hs] at hnv
      simp only at hnv
      by_cases hvv : value = []
      · rw [if_pos hvv] at hnv; cases hnv
      · rw [if_neg hvv] at hnv
        have := (Option.some.injEq _ _).mp hnv
        rw [← this]
        exact unquotePlus_ne_nil hvv

theorem qdictAdd_values {d : QDict} {k w : Str} :
    ∀ e ∈ qdictAdd d k w, ∀ v ∈ e.2,
      (∃ e' ∈ d, e'.1 = e.1 ∧ v ∈ e'.2) ∨ (e.1 = k ∧ v = w) := by
  induction d with
  | nil =>
    intro e he v hv
    simp only [qdictAdd, List.mem_singleton] at he
    subst he
    simp only [List.mem_singleton] at hv
    exact Or.inr ⟨rfl, hv⟩
  | cons e0 d0 ih =>
    intro e he v hv
    rw [qdictAdd] at he
    by_cases hk : e0.1 = k
    · rw [if_pos hk] at he
      rcases List.mem_cons.mp he with he | he
      · subst he
        simp only [List.mem_append, List.mem_singleton] at hv
        rcases hv with hv | hv
        · exact Or.inl ⟨e0, List.mem_cons_self _ _, rfl, hv⟩
        · exact Or.inr ⟨hk, hv⟩
      · exact Or.inl ⟨e, List.mem_cons_of_mem _ he, rfl, hv⟩
    · rw [if_neg hk] at he
      rcases List.mem_cons.mp he with he | he
      · subst he
        exact Or.inl ⟨e0, List.mem_cons_self _ _, rfl, hv⟩
      · rcases ih e he v hv with ⟨e', he', h1, h2⟩ | h
        · exact Or.inl ⟨e', List.mem_cons_of_mem _ he', h1, h2⟩
        · exact Or.inr h

theorem groupPairs_values {l : List (Str × Str)} :
    ∀ e ∈ groupPairs l, ∀ v ∈ e.2, (e.1, v) ∈ l := by
  suffices h : ∀ (l : List (Str × Str)) (d : QDict),
      ∀ e ∈ l.foldl (fun d p => qdictAdd d p.1 p.2) d, ∀ v ∈ e.2,
        (∃ e' ∈ d, e'.1 = e.1 ∧ v ∈ e'.2) ∨ (e.1, v) ∈ l by
    intro e he v hv
    rcases h l [] e he v hv with ⟨e', he', _⟩ | hm
    · cases he'
    · exact hm
  intro l
  induction l with
  | nil =>
    intro d e he v hv
    exact Or.inl ⟨e, he, rfl, hv⟩
  | cons p ps ih =>
    intro d e he v hv
    rw [List.foldl_cons] at he
    rcases ih (qdictAdd d p.1 p.2) e he v hv with ⟨e', he', h1, h2⟩ | hm
    · rcases qdictAdd_values e' he' v h2 with ⟨e'', he'', h3, h4⟩ | ⟨h3, h4⟩
      · exact Or.inl ⟨e'', he'', h3.trans h1, h4⟩
      · have : (e.1, v) = p := by
          rcases p with ⟨pk, pv⟩
          simp only at h3 h4
          rw [← h1, h3, h4]
        rw [this]
        exact Or.inr (List.mem_cons_self p ps)
    · exact Or.inr (List.mem_cons_of_mem _ hm)

theorem parse_qs_values_ne_nil {qs : Str} : ∀ e ∈ parse_qs qs, ∀ v ∈ e.2, v ≠ [] := by
  intro e he v hv
  have := groupPairs_values e he v hv
  exact parse_qsl_values_ne_nil (e.1, v) this

theorem qdictPop_keys {d : QDict} {k : Str} : ∀ e ∈ qdictPop d k, ¬e.1 = k := by
  intro e he
  rw [qdictPop] at he
  have := List.of_mem_filter he
  simpa using this

theorem qdictPop_sub {d : QDict} {k : Str} : ∀ e ∈ qdictPop d k, e ∈ d := by
  intro e he
  exact List.mem_of_mem_filter he

theorem qdictSet_of_absent {d : QDict} {k : Str} {vs : List Str}
    (h : ∀ e ∈ d, ¬e.1 = k) : qdictSet d k vs = d ++ [(k, vs)] := by
  rw [qdictSet, if_neg]
  simp only [List.any_eq_true, decide_eq_true_eq, not_exists, not_and]
  intro e he
  exact h e he

theorem strippedQP_keys {q : Str} :
    ∀ e ∈ strippedQP q, ¬e.1 = tagKey ∧ ¬e.1 = refUnderscoreKey ∧ ¬e.1 = thKey := by
  intro e he
  refine ⟨?_, ?_, qdictPop_keys e he⟩
  · exact qdictPop_keys e (qdictPop_sub e (qdictPop_sub e he))
  · exact qdictPop_keys e (qdictPop_sub e he)

theorem processedQP_eq {q tag : Str} :
    processedQP q tag = strippedQP q ++ [(tagKey, [tag])] :=
  qdictSet_of_absent (fun e he => (strippedQP_keys e he).1)

theorem processedQP_values {q tag : Str} (htag : tag ≠ []) :
    ∀ e ∈ processedQP q tag, ∀ v ∈ e.2, v ≠ [] := by
  rw [processedQP_eq]
  intro e he v hv
  rcases List.mem_append.mp he with he | he
  · exact parse_qs_values_ne_nil e
      (qdictPop_sub e (qdictPop_sub e (qdictPop_sub e he))) v hv
  · simp only [List.mem_singleton] at he
    subst he
    simp only [List.mem_singleton] at hv
    exact hv ▸ htag

theorem qdictPairs_append (d1 d2 : QDict) :
    qdictPairs (d1 ++ d2) = qdictPairs d1 ++ qdictPairs d2 := by
  simp [qdictPairs]

theorem qdictPairs_keys {d : QDict} : ∀ p ∈ qdictPairs d, ∃ e ∈ d, p.1 = e.1 := by
  intro p hp
  simp only [qdictPairs, List.mem_flatMap, List.mem_map] at hp
  obtain ⟨e, he, v, _, rfl⟩ := hp
  exact ⟨e, he, rfl⟩

theorem processedQP_pairs {q tag : Str} :
    qdictPairs (processedQP q tag) = qdictPairs (strippedQP q) ++ [(tagKey, tag)] := by
  rw [processedQP_eq, qdictPairs_append]
  rfl

/-! ## Re-parsing a reconstructed URL -/

theorem findCharIdx_append {sep : Char} {a r : Str} (h : sep ∉ a) :
    findCharIdx sep (a ++ sep :: r) = some a.length := by
  induction a with
  | nil => simp [findCharIdx]
  | cons c cs ih =>
    have hc : ¬c = sep := fun hh => h (hh ▸ List.mem_cons_self c cs)
    have hcs : sep ∉ cs := fun hm => h (List.mem_cons_of_mem _ hm)
    simp [findCharIdx, hc, ih hcs]

theorem splitScheme_of_scheme {s r : Str} (ha : isAsciiAlpha (s.headD ' ') = true)
    (hsc : (s.drop 1).all isSchemeChar = true) (hlo : s.map Char.toLower = s)
    (hc : ':' ∉ s) (hne : s ≠ []) :
    splitScheme (s ++ ':' :: r) = (s, r) := by
  have ht : (s ++ ':' :: r).take s.length = s := List.take_left s (':' :: r)
  have hd : (s ++ ':' :: r).drop (s.length + 1) = r := by
    rw [show s ++ ':' :: r = (s ++ [':']) ++ r by simp]
    exact List.drop_left' (by simp)
  have hh : (s ++ ':' :: r).headD ' ' = s.headD ' ' := by
    rcases s with _ | ⟨c, cs⟩
    · exact absurd rfl hne
    · rfl
  simp only [splitScheme, findCharIdx_append hc]
  rw [if_pos ⟨List.length_pos.mpr hne, hh ▸ ha, by rw [ht]; exact hsc⟩, ht, hd, hlo]

theorem splitScheme_not_alpha {url : Str} (h : isAsciiAlpha (url.headD ' ') = false) :
    splitScheme url = ([], url) := by
  rcases hf : findCharIdx ':' url with _ | i <;> simp only [splitScheme, hf]
  rw [if_neg]
  rintro ⟨_, h2, _⟩
  rw [h] at h2
  cases h2

theorem urlparse_buildUrl {s n p q : Str} (hs : SchemeOk s) (hn : NetlocOk n)
    (hp : PathOk p) (hq : QueryOk q) :
    urlparse (buildUrl s n p q) = ⟨s, n, p, [], q, []⟩ := by
  obtain ⟨hp1, hp2, hp3, hp4, hp5⟩ := hp
  obtain ⟨hn1, -, -⟩ := hn
  obtain ⟨hq1, hq2⟩ := hq
  set qq : Str := if q = [] then [] else '?' :: q with hqqdef
  have hqqh : '#' ∉ qq := by
    rw [hqqdef]
    by_cases hqe : q = []
    · simp [hqe]
    · rw [if_neg hqe]
      intro hm
      rcases List.mem_cons.mp hm with hm | hm
      · cases hm
      · exact charIn_eq_false_iff.mp hq1 hm
  have hqqclean : ∀ c ∈ qq, isUnsafeUrlByte c = false := by
    rw [hqqdef]
    by_cases hqe : q = []
    · simp [hqe]
    · rw [if_neg hqe]
      intro c hc
      rcases List.mem_cons.mp hc with hc | hc
      · subst hc; decide
      · exact hq2 c hc
  -- the netloc stage
  have hstop : ∀ c ∈ n, (!isNetlocStop c) = true := by
    intro c hc
    rw [(hn1 c hc).1]
    rfl
  have htail0 : (p ++ qq).takeWhile (fun c => !isNetlocStop c) = [] := by
    rcases p with _ | ⟨c, p'⟩
    · rw [List.nil_append, hqqdef]
      by_cases hqe : q = []
      · simp [hqe]
      · rw [if_neg hqe]
        simp [List.takeWhile_cons, isNetlocStop]
    · have hc : c = '/' := by
        rcases hp1 with h | h
        · cases h
        · exact h
      subst hc
      simp [List.takeWhile_cons, isNetlocStop]
  have hdrop0 : (p ++ qq).dropWhile (fun c => !isNetlocStop c) = p ++ qq := by
    rcases p with _ | ⟨c, p'⟩
    · rw [List.nil_append, hqqdef]
      by_cases hqe : q = []
      · simp [hqe]
      · rw [if_neg hqe]
        simp [List.dropWhile_cons, isNetlocStop]
    · have hc : c = '/' := by
        rcases hp1 with h | h
        · cases h
        · exact h
      subst hc
      simp [List.dropWhile_cons, isNetlocStop]
  have h4 : (n ++ (p ++ qq)).takeWhile (fun c => !isNetlocStop c) = n := by
    rw [List.takeWhile_append_of_pos hstop, htail0, List.append_nil]
  have h5 : (n ++ (p ++ qq)).dropWhile (fun c => !isNetlocStop c) = p ++ qq := by
    rw [List.dropWhile_append_of_pos hstop, hdrop0]
  -- the fragment stage
  have h6 : splitFirst '#' (p ++ qq) = (p ++ qq, none) := by
    refine splitFirst_of_not_mem (fun hm => ?_)
    rcases List.mem_append.mp hm with hm | hm
    · exact charIn_eq_false_iff.mp hp3 hm
    · exact hqqh hm
  -- the query stage
  have h7 : splitFirst '?' (p ++ qq) = (p, if q = [] then none else some q) := by
    rw [hqqdef]
    by_cases hqe : q = []
    · rw [if_pos hqe, if_pos hqe, List.append_nil]
      exact splitFirst_of_not_mem (charIn_eq_false_iff.mp hp2)
    · rw [if_neg hqe, if_neg hqe]
      exact splitFirst_append (charIn_eq_false_iff.mp hp2)
  -- two cases on the scheme
  rcases hs with hs0 | ⟨hs1, hs2, hs3, hs4, hs5⟩
  · -- no scheme
    have hb : buildUrl s n p q = '/' :: '/' :: (n ++ (p ++ qq)) := by
      rw [buildUrl, if_pos hs0, hqqdef]
      simp
    have hclean : ∀ c ∈ buildUrl s n p q, (!isUnsafeUrlByte c) = true := by
      rw [hb]
      intro c hc
      rcases List.mem_cons.mp hc with hc | hc
      · subst hc; decide
      rcases List.mem_cons.mp hc with hc | hc
      · subst hc; decide
      rcases List.mem_append.mp hc with hc | hc
      · rw [(hn1 c hc).2]; rfl
      rcases List.mem_append.mp hc with hc | hc
      · rw [hp5 c hc]; rfl
      · rw [hqqclean c hc]; rfl
    have hsan : sanitizeUrl (buildUrl s n p q) = '/' :: '/' :: (n ++ (p ++ qq)) := by
      rw [sanitizeUrl, hb]
      rw [List.dropWhile_cons, if_neg (by decide)]
      rw [List.filter_eq_self.mpr (hb ▸ hclean)]
    have hsch : splitScheme ('/' :: '/' :: (n ++ (p ++ qq))) =
        ([], '/' :: '/' :: (n ++ (p ++ qq))) :=
      splitScheme_not_alpha (by rw [List.headD_cons]; decide)
    have htk : ('/' :: '/' :: (n ++ (p ++ qq))).take 2 = "//".data := rfl
    have hdr : ('/' :: '/' :: (n ++ (p ++ qq))).drop 2 = n ++ (p ++ qq) := rfl
    rw [urlparse, hsan]
    try dsimp only
    rw [hsch]
    try dsimp only
    rw [htk, if_pos rfl, hdr, h4, h5]
    try dsimp only
    rw [h6]
    try dsimp only
    rw [h7]
    try dsimp only
    rw [hp4, Bool.and_false]
    try dsimp only
    subst hs0
    by_cases hqe : q = [] <;> simp [hqe]
  · -- with a scheme
    have hne : s ≠ [] := by
      intro hh
      rw [hh] at hs1
      exact absurd hs1 (by decide)
    have hb : buildUrl s n p q = s ++ ':' :: ('/' :: '/' :: (n ++ (p ++ qq))) := by
      rw [buildUrl, if_neg hne, hqqdef]
      simp
    have hclean : ∀ c ∈ buildUrl s n p q, (!isUnsafeUrlByte c) = true := by
      rw [hb]
      intro c hc
      rcases List.mem_append.mp hc with hc | hc
      · rw [hs5 c hc]; rfl
      rcases List.mem_cons.mp hc with hc | hc
      · subst hc; decide
      rcases List.mem_cons.mp hc with hc | hc
      · subst hc; decide
      rcases List.mem_cons.mp hc with hc | hc
      · subst hc; decide
      rcases List.mem_append.mp hc with hc | hc
      · rw [(hn1 c hc).2]; rfl
      rcases List.mem_append.mp hc with hc | hc
      · rw [hp5 c hc]; rfl
      · rw [hqqclean c hc]; rfl
    have hsan : sanitizeUrl (buildUrl s n p q) = s ++ ':' :: ('/' :: '/' :: (n ++ (p ++ qq))) := by
      rw [sanitizeUrl, hb]
      have hd : (s ++ ':' :: ('/' :: '/' :: (n ++ (p ++ qq)))).dropWhile isC0OrSpace =
          s ++ ':' :: ('/' :: '/' :: (n ++ (p ++ qq))) := by
        rcases hsx : s with _ | ⟨c, s'⟩
        · exact absurd hsx hne
        · rw [List.cons_append, List.dropWhile_cons, if_neg]
          rw [hsx] at hs1
          simp only [isAsciiAlpha, isLowerAlpha, isUpperAlpha, Bool.or_eq_true,
            decide_eq_true_eq, List.headD] at hs1
          simp only [isC0OrSpace, decide_eq_true_eq]
          omega
      rw [hd, List.filter_eq_self.mpr (hb ▸ hclean)]
    have hsch := splitScheme_of_scheme hs1 hs2 hs3 (charIn_eq_false_iff.mp hs4) hne
      (r := '/' :: '/' :: (n ++ (p ++ qq)))
    have htk : ('/' :: '/' :: (n ++ (p ++ qq))).take 2 = "//".data := rfl
    have hdr : ('/' :: '/' :: (n ++ (p ++ qq))).drop 2 = n ++ (p ++ qq) := rfl
    rw [urlparse, hsan]
    try dsimp only
    rw [hsch]
    try dsimp only
    rw [htk, if_pos rfl, hdr, h4, h5]
    try dsimp only
    rw [h6]
    try dsimp only
    rw [h7]
    try dsimp only
    rw [hp4, Bool.and_false]
    try dsimp only
    by_cases hqe : q = [] <;> simp [hqe]

theorem urlparse_buildUrl_query {s n p q : Str} (hs : SchemeOk s) (hn : NetlocOk n)
    (hp1 : p = [] ∨ p.headD ' ' = '/') (hp2 : charIn '?' p = false)
    (hp3 : charIn '#' p = false) (hp5 : CleanStr p) (hq : QueryOk q) :
    (urlparse (buildUrl s n p q)).query = q := by
  obtain ⟨hn1, -, -⟩ := hn
  obtain ⟨hq1, hq2⟩ := hq
  set qq : Str := if q = [] then [] else '?' :: q with hqqdef
  have hqqh : '#' ∉ qq := by
    rw [hqqdef]
    by_cases hqe : q = []
    · simp [hqe]
    · rw [if_neg hqe]
      intro hm
      rcases List.mem_cons.mp hm with hm | hm
      · cases hm
      · exact charIn_eq_false_iff.mp hq1 hm
  have hqqclean : ∀ c ∈ qq, isUnsafeUrlByte c = false := by
    rw [hqqdef]
    by_cases hqe : q = []
    · simp [hqe]
    · rw [if_neg hqe]
      intro c hc
      rcases List.mem_cons.mp hc with hc | hc
      · subst hc; decide
      · exact hq2 c hc
  -- the netloc stage
  have hstop : ∀ c ∈ n, (!isNetlocStop c) = true := by
    intro c hc
    rw [(hn1 c hc).1]
    rfl
  have htail0 : (p ++ qq).takeWhile (fun c => !isNetlocStop c) = [] := by
    rcases p with _ | ⟨c, p'⟩
    · rw [List.nil_append, hqqdef]
      by_cases hqe : q = []
      · simp [hqe]
      · rw [if_neg hqe]
        simp [List.takeWhile_cons, isNetlocStop]
    · have hc : c = '/' := by
        rcases hp1 with h | h
        · cases h
        · exact h
      subst hc
      simp [List.takeWhile_cons, isNetlocStop]
  have hdrop0 : (p ++ qq).dropWhile (fun c => !isNetlocStop c) = p ++ qq := by
    rcases p with _ | ⟨c, p'⟩
    · rw [List.nil_append, hqqdef]
      by_cases hqe : q = []
      · simp [hqe]
      · rw [if_neg hqe]
        simp [List.dropWhile_cons, isNetlocStop]
    · have hc : c = '/' := by
        rcases hp1 with h | h
        · cases h
        · exact h
      subst hc
      simp [List.dropWhile_cons, isNetlocStop]
  have h4 : (n ++ (p ++ qq)).takeWhile (fun c => !isNetlocStop c) = n := by
    rw [List.takeWhile_append_of_pos hstop, htail0, List.append_nil]
  have h5 : (n ++ (p ++ qq)).dropWhile (fun c => !isNetlocStop c) = p ++ qq := by
    rw [List.dropWhile_append_of_pos hstop, hdrop0]
  -- the fragment stage
  have h6 : splitFirst '#' (p ++ qq) = (p ++ qq, none) := by
    refine splitFirst_of_not_mem (fun hm => ?_)
    rcases List.mem_append.mp hm with hm | hm
    · exact charIn_eq_false_iff.mp hp3 hm
    · exact hqqh hm
  -- the query stage
  have h7 : splitFirst '?' (p ++ qq) = (p, if q = [] then none else some q) := by
    rw [hqqdef]
    by_cases hqe : q = []
    · rw [if_pos hqe, if_pos hqe, List.append_nil]
      exact splitFirst_of_not_mem (charIn_eq_false_iff.mp hp2)
    · rw [if_neg hqe, if_neg hqe]
      exact splitFirst_append (charIn_eq_false_iff.mp hp2)
  -- two cases on the scheme
  rcases hs with hs0 | ⟨hs1, hs2, hs3, hs4, hs5⟩
  · -- no scheme
    have hb : buildUrl s n p q = '/' :: '/' :: (n ++ (p ++ qq)) := by
      rw [buildUrl, if_pos hs0, hqqdef]
      simp
    have hclean : ∀ c ∈ buildUrl s n p q, (!isUnsafeUrlByte c) = true := by
      rw [hb]
      intro c hc
      rcases List.mem_cons.mp hc with hc | hc
      · subst hc; decide
      rcases List.mem_cons.mp hc with hc | hc
      · subst hc; decide
      rcases List.mem_append.mp hc with hc | hc
      · rw [(hn1 c hc).2]; rfl
      rcases List.mem_append.mp hc with hc | hc
      · rw [hp5 c hc]; rfl
      · rw [hqqclean c hc]; rfl
    have hsan : sanitizeUrl (buildUrl s n p q) = '/' :: '/' :: (n ++ (p ++ qq)) := by
      rw [sanitizeUrl, hb]
      rw [List.dropWhile_cons, if_neg (by decide)]
      rw [List.filter_eq_self.mpr (hb ▸ hclean)]
    have hsch : splitScheme ('/' :: '/' :: (n ++ (p ++ qq))) =
        ([], '/' :: '/' :: (n ++ (p ++ qq))) :=
      splitScheme_not_alpha (by rw [List.headD_cons]; decide)
    have htk : ('/' :: '/' :: (n ++ (p ++ qq))).take 2 = "//".data := rfl
    have hdr : ('/' :: '/' :: (n ++ (p ++ qq))).drop 2 = n ++ (p ++ qq) := rfl
    rw [urlparse, hsan]
    try dsimp only
    rw [hsch]
    try dsimp only
    rw [htk, if_pos rfl, hdr, h4, h5]
    try dsimp only
    rw [h6]
    try dsimp only
    rw [h7]
    try dsimp only
    by_cases hqe : q = [] <;> simp [hqe]
  · -- with a scheme
    have hne : s ≠ [] := by
      intro hh
      rw [hh] at hs1
      exact absurd hs1 (by decide)
    have hb : buildUrl s n p q = s ++ ':' :: ('/' :: '/' :: (n ++ (p ++ qq))) := by
      rw [buildUrl, if_neg hne, hqqdef]
      simp
    have hclean : ∀ c ∈ buildUrl s n p q, (!isUnsafeUrlByte c) = true := by
      rw [hb]
      intro c hc
      rcases List.mem_append.mp hc with hc | hc
      · rw [hs5 c hc]; rfl
      rcases List.mem_cons.mp hc with hc | hc
      · subst hc; decide
      rcases List.mem_cons.mp hc with hc | hc
      · subst hc; decide
      rcases List.mem_cons.mp hc with hc | hc
      · subst hc; decide
      rcases List.mem_append.mp hc with hc | hc
      · rw [(hn1 c hc).2]; rfl
      rcases List.mem_append.mp hc with hc | hc
      · rw [hp5 c hc]; rfl
      · rw [hqqclean c hc]; rfl
    have hsan : sanitizeUrl (buildUrl s n p q) = s ++ ':' :: ('/' :: '/' :: (n ++ (p ++ qq))) := by
      rw [sanitizeUrl, hb]
      have hd : (s ++ ':' :: ('/' :: '/' :: (n ++ (p ++ qq)))).dropWhile isC0OrSpace =
          s ++ ':' :: ('/' :: '/' :: (n ++ (p ++ qq))) := by
        rcases hsx : s with _ | ⟨c, s'⟩
        · exact absurd hsx hne
        · rw [List.cons_append, List.dropWhile_cons, if_neg]
          rw [hsx] at hs1
          simp only [isAsciiAlpha, isLowerAlpha, isUpperAlpha, Bool.or_eq_true,
            decide_eq_true_eq, List.headD] at hs1
          simp only [isC0OrSpace, decide_eq_true_eq]
          omega
      rw [hd, List.filter_eq_self.mpr (hb ▸ hclean)]
    have hsch := splitScheme_of_scheme hs1 hs2 hs3 (charIn_eq_false_iff.mp hs4) hne
      (r := '/' :: '/' :: (n ++ (p ++ qq)))
    have htk : ('/' :: '/' :: (n ++ (p ++ qq))).take 2 = "//".data := rfl
    have hdr : ('/' :: '/' :: (n ++ (p ++ qq))).drop 2 = n ++ (p ++ qq) := rfl
    rw [urlparse, hsan]
    try dsimp only
    rw [hsch]
    try dsimp only
    rw [htk, if_pos rfl, hdr, h4, h5]
    try dsimp only
    rw [h6]
    try dsimp only
    rw [h7]
    try dsimp only
    by_cases hqe : q = [] <;> simp [hqe]

/-! ## Characterising `generate_affiliate_link` on rewriteable URLs -/

theorem urlunsplit_std {s n pth : Str} (hn : n ≠ []) (hpth : pth = [] ∨ pth.headD ' ' = '/') :
    urlunsplit s n pth [] [] = (if s = [] then [] else s ++ [':']) ++ "//".data ++ n ++ pth := by
  rw [urlunsplit]
  have hslash : ¬(pth ≠ [] ∧ pth.headD ' ' ≠ '/') := by
    rcases hpth with h | h
    · rintro ⟨h1, -⟩; exact h1 h
    · rintro ⟨-, h2⟩; exact h2 h
  rw [if_pos (Or.inl hn), if_neg hslash]
  by_cases hse : s = []
  · rw [if_neg (not_not_intro hse), if_neg (by simp), if_neg (by simp), if_pos hse]
    rfl
  · rw [if_pos hse, if_neg (by simp), if_neg (by simp), if_neg hse]
    simp [List.append_assoc]

theorem urlencode_processed_ne_nil (q tag : Str) : urlencode (processedQP q tag) ≠ [] := by
  rw [urlencode]
  refine joinSep_ne_nil (x := quote_plus tagKey ++ '=' :: quote_plus tag) ?_ ?_
  · refine List.mem_map.mpr ⟨(tagKey, tag), ?_, rfl⟩
    rw [processedQP_pairs]
    exact List.mem_append_right _ (List.mem_singleton.mpr rfl)
  · rcases hk : quote_plus tagKey with _ | _ <;> simp

theorem genAff_rewrite {resolve : Str → Option Str} {tag url : Str} {s n p pr q f : Str}
    (hup : urlparse url = ⟨s, n, p, pr, q, f⟩)
    (hpr : pr = [])
    (hshort : isShortenedDomain n = false)
    (hsup : supportedNonShort.any (fun d => strContains n d) = true)
    (hpath : p = [] ∨ p.headD ' ' = '/')
    (hnne : n ≠ []) :
    generate_affiliate_link resolve tag url =
      buildUrl s n
        (match get_asin_from_url url with
         | some a => "/dp/".data ++ a
         | none => p)
        (urlencode (processedQP q tag)) := by
  rw [generate_affiliate_link, hup]
  simp only [hshort, Bool.false_eq_true, if_false, hsup, Bool.not_true, hpr]
  have hnq := urlencode_processed_ne_nil q tag
  rw [show qdictSet (qdictPop (qdictPop (qdictPop (parse_qs q) tagKey) refUnderscoreKey) thKey)
      tagKey [tag] = processedQP q tag from rfl]
  have hbase : ∀ pth : Str, pth = [] ∨ pth.headD ' ' = '/' →
      urlunparse ⟨s, n, pth, [], [], []⟩ =
        (if s = [] then [] else s ++ [':']) ++ "//".data ++ n ++ pth := by
    intro pth hpth
    rw [urlunparse]
    dsimp only
    rw [if_neg (by simp)]
    exact urlunsplit_std hnne hpth
  rcases hga : get_asin_from_url url with _ | a
  · dsimp only
    rw [hbase p hpath, if_pos hnq, buildUrl, if_neg hnq]
  · dsimp only
    rw [hbase ("/dp/".data ++ a) (Or.inr rfl), if_pos hnq, buildUrl, if_neg hnq]

theorem joinSep_mem {sep : Char} {c' : Char} {parts : List Str}
    (h : c' ∈ joinSep sep parts) : c' = sep ∨ ∃ x ∈ parts, c' ∈ x := by
  induction parts with
  | nil => cases h
  | cons x xs ih =>
    cases xs with
    | nil =>
      rw [show joinSep sep [x] = x from rfl] at h
      exact Or.inr ⟨x, List.mem_singleton.mpr rfl, h⟩
    | cons y ys =>
      rw [show joinSep sep (x :: y :: ys) = x ++ sep :: joinSep sep (y :: ys) from rfl] at h
      rcases List.mem_append.mp h with h | h
      · exact Or.inr ⟨x, List.mem_cons_self _ _, h⟩
      · rcases List.mem_cons.mp h with h | h
        · exact Or.inl h
        · rcases ih h with h | ⟨z, hz, hc⟩
          · exact Or.inl h
          · exact Or.inr ⟨z, List.mem_cons_of_mem _ hz, hc⟩

theorem urlencode_chars {c' : Char} {d : QDict} (h : c' ∈ urlencode d) :
    isSafeChar c' = true ∨ c' = '+' ∨ c' = '%' ∨ c' = '&' ∨ c' = '=' := by
  rw [urlencode] at h
  rcases joinSep_mem h with h | ⟨x, hx, hc⟩
  · exact Or.inr (Or.inr (Or.inr (Or.inl h)))
  · rcases List.mem_map.mp hx with ⟨pr, _, rfl⟩
    rcases List.mem_append.mp hc with hc | hc
    · rcases quote_plus_chars hc with h | h | h
      · exact Or.inl h
      · exact Or.inr (Or.inl h)
      · exact Or.inr (Or.inr (Or.inl h))
    · rcases List.mem_cons.mp hc with hc | hc
      · exact Or.inr (Or.inr (Or.inr (Or.inr hc)))
      · rcases quote_plus_chars hc with h | h | h
        · exact Or.inl h
        · exact Or.inr (Or.inl h)
        · exact Or.inr (Or.inr (Or.inl h))

theorem QueryOk_urlencode (d : QDict) : QueryOk (urlencode d) := by
  constructor
  · rw [charIn_eq_false_iff]
    intro hm
    rcases urlencode_chars hm with h | h | h | h | h
    · exact absurd h (by decide)
    all_goals cases h
  · intro c hc
    rcases urlencode_chars hc with h | h | h | h | h
    · exact (safeChar_facts h).2
    all_goals (subst h; decide)

theorem upperAlnum_facts {c : Char} (h : isUpperAlnum c = true) :
    ¬c = '?' ∧ ¬c = '#' ∧ ¬c = ';' ∧ isUnsafeUrlByte c = false := by
  simp only [isUpperAlnum, isUpperAlpha, isDigitChar, Bool.or_eq_true, decide_eq_true_eq] at h
  refine ⟨?_, ?_, ?_, ?_⟩
  · rw [char_eq_iff_toNat]; intro hh; rw [show Char.toNat '?' = 63 from rfl] at hh; omega
  · rw [char_eq_iff_toNat]; intro hh; rw [show Char.toNat '#' = 35 from rfl] at hh; omega
  · rw [char_eq_iff_toNat]; intro hh; rw [show Char.toNat ';' = 59 from rfl] at hh; omega
  · simp only [isUnsafeUrlByte, Bool.or_eq_false_iff, decide_eq_false_iff_not]
    omega

theorem PathOk_dp {a : Str} (ha : a.all isUpperAlnum = true) :
    PathOk ("/dp/".data ++ a) := by
  rw [List.all_eq_true] at ha
  refine ⟨Or.inr rfl, ?_, ?_, ?_, ?_⟩
  · rw [charIn_eq_false_iff]
    intro hm
    rcases List.mem_append.mp hm with hm | hm
    · simp only [List.mem_cons, List.not_mem_nil, or_false] at hm
      rcases hm with h | h | h | h <;> cases h
    · exact (upperAlnum_facts (ha _ hm)).1 rfl
  · rw [charIn_eq_false_iff]
    intro hm
    rcases List.mem_append.mp hm with hm | hm
    · simp only [List.mem_cons, List.not_mem_nil, or_false] at hm
      rcases hm with h | h | h | h <;> cases h
    · exact (upperAlnum_facts (ha _ hm)).2.1 rfl
  · rw [charIn_eq_false_iff]
    intro hm
    rcases List.mem_append.mp hm with hm | hm
    · simp only [List.mem_cons, List.not_mem_nil, or_false] at hm
      rcases hm with h | h | h | h <;> cases h
    · exact (upperAlnum_facts (ha _ hm)).2.2.1 rfl
  · intro c hc
    rcases List.mem_append.mp hc with hm | hm
    · simp only [List.mem_cons, List.not_mem_nil, or_false] at hm
      rcases hm with h | h | h | h <;> (subst h; decide)
    · exact (upperAlnum_facts (ha _ hm)).2.2.2

theorem genAff_query_pairs {resolve : Str → Option Str} {tag url : Str} {s n p pr q f : Str}
    (hup : urlparse url = ⟨s, n, p, pr, q, f⟩)
    (hpr : pr = [])
    (hshort : isShortenedDomain n = false)
    (hsup : supportedNonShort.any (fun d => strContains n d) = true)
    (hnne : n ≠ [])
    (hs : SchemeOk s) (hn : NetlocOk n) (hpath : PathOk p)
    (htag : tag ≠ [])
    (hasin : ∀ a, get_asin_from_url url = some a → a.all isUpperAlnum = true) :
    urlQueryPairs (generate_affiliate_link resolve tag url) =
      qdictPairs (strippedQP q) ++ [(tagKey, tag)] := by
  have hpout : PathOk (match get_asin_from_url url with
      | some a => "/dp/".data ++ a
      | none => p) := by
    rcases hga : get_asin_from_url url with _ | a
    · exact hpath
    · exact PathOk_dp (hasin a hga)
  rw [urlQueryPairs, genAff_rewrite hup hpr hshort hsup hpath.1 hnne,
    urlparse_buildUrl hs hn hpout (QueryOk_urlencode _)]
  dsimp only
  rw [parse_qsl_urlencode (processedQP_values htag), processedQP_pairs]

/-! ## Lemmas about the ASIN search and the link-detection loop -/

theorem supported_netloc_ne_nil {n : Str}
    (hsup : supportedNonShort.any (fun d => strContains n d) = true) : n ≠ [] := by
  intro h
  subst h
  exact absurd hsup (by decide)

theorem asinSearch_cons {c : Char} {cs : Str} :
    asinSearch (c :: cs) =
      match matchAsinAt (c :: cs) with
      | some t => some t
      | none => asinSearch cs := rfl

theorem asinSearch_skip {k : Nat} :
    ∀ {l : Str}, (∀ i < k, matchAsinAt (l.drop i) = none) →
      asinSearch l = asinSearch (l.drop k) := by
  induction k with
  | zero => intro l _; rfl
  | succ k ih =>
    intro l h
    have h0 : matchAsinAt l = none := by simpa using h 0 (Nat.succ_pos k)
    rcases l with _ | ⟨c, cs⟩
    · simp
    · rw [asinSearch_cons, h0]
      have hcs : ∀ i < k, matchAsinAt (cs.drop i) = none := by
        intro i hi
        have := h (i + 1) (by omega)
        rwa [List.drop_succ_cons] at this
      rw [show (c :: cs).drop (k + 1) = cs.drop k from rfl]
      exact ih hcs

theorem matchAsinAt_marker {m tok suf : Str} (hm : m = "dp/".data ∨ m = "gp/product/".data)
    (hlen : tok.length = 10) (htok : tok.all isUpperAlnum = true) :
    matchAsinAt (m ++ (tok ++ suf)) = some tok := by
  have htake : (tok ++ suf).take 10 = tok := by
    rw [← hlen]
    exact List.take_left tok suf
  rcases hm with rfl | rfl
  · rw [matchAsinAt, if_pos (by
      rw [List.isPrefixOf_iff_prefix]
      exact ⟨tok ++ suf, rfl⟩)]
    rw [show ("dp/".data ++ (tok ++ suf)).drop 3 = tok ++ suf from rfl, htake,
      if_pos ⟨hlen, htok⟩]
  · rw [matchAsinAt, if_neg (by
      intro hpre
      rw [List.isPrefixOf_iff_prefix] at hpre
      rcases hpre with ⟨t, ht⟩
      rw [show (dpMarker : Str) = 'd' :: "p/".data from rfl,
        show ("gp/product/".data : Str) = 'g' :: "p/product/".data from rfl,
        List.cons_append] at ht
      simp at ht)]
    rw [if_pos (by
      rw [List.isPrefixOf_iff_prefix]
      exact ⟨tok ++ suf, rfl⟩)]
    rw [show ("gp/product/".data ++ (tok ++ suf)).drop 11 = tok ++ suf from rfl, htake,
      if_pos ⟨hlen, htok⟩]

theorem isUpperAlnum_not_lower {c : Char} (h : isUpperAlnum c = true) :
    isLowerAlpha c = false := by
  simp only [isUpperAlnum, isUpperAlpha, isDigitChar, Bool.or_eq_true, decide_eq_true_eq] at h
  simp only [isLowerAlpha, decide_eq_false_iff_not]
  omega

theorem tenRun_pat6 {w mid z : Str} (hlen : mid.length = 10)
    (hmid : mid.all isUpperAlnum = true) :
    reSearch pat6At (w ++ mid ++ z) = true := by
  rw [reSearch, List.any_eq_true]
  refine ⟨mid ++ z, ?_, ?_⟩
  · rw [List.mem_tails, List.append_assoc]
    exact List.suffix_append w (mid ++ z)
  · rw [pat6At]
    have htake : (mid ++ z).take 10 = mid := by
      rw [← hlen]
      exact List.take_left mid z
    rw [htake, hlen, hmid]
    rfl

theorem isAmazonLoop_of_check1 {text : Str}
    (h1 : (tenCharExact text && !startsLower text) = true) (ps : List (Str → Bool)) :
    isAmazonLoop text ps = ps.any (fun p => reSearch p text) := by
  induction ps with
  | nil => rfl
  | cons p ps ih =>
    by_cases hr : reSearch p text = true
    · simp [isAmazonLoop, hr, h1]
    · simp [isAmazonLoop, hr, ih]

theorem isAmazonLoop_of_check2 {text : Str} (h2 : startsHttpUrl text = true)
    (ps : List (Str → Bool)) :
    isAmazonLoop text ps = ps.any (fun p => reSearch p text) := by
  induction ps with
  | nil => rfl
  | cons p ps ih =>
    by_cases hr : reSearch p text = true
    · by_cases h1 : (tenCharExact text && !startsLower text) = true
      · simp [isAmazonLoop, hr, h1]
      · simp [isAmazonLoop, hr, h1, h2]
    · simp [isAmazonLoop, hr, ih]

theorem params_path_eq (x r : Str) :
    (if r ≠ [] then x ++ ';' :: r else x) = x ++ (if r = [] then [] else ';' :: r) := by
  by_cases hr : r = [] <;> simp [hr]

theorem genAff_rewrite_asin {resolve : Str → Option Str} {tag url : Str} {s n p r q f a : Str}
    (hup : urlparse url = ⟨s, n, p, r, q, f⟩)
    (hshort : isShortenedDomain n = false)
    (hsup : supportedNonShort.any (fun d => strContains n d) = true)
    (hasin : get_asin_from_url url = some a) :
    generate_affiliate_link resolve tag url =
      buildUrl s n ("/dp/".data ++ a ++ (if r = [] then [] else ';' :: r))
        (urlencode (processedQP q tag)) := by
  have hnne := supported_netloc_ne_nil hsup
  rw [generate_affiliate_link, hup]
  simp only [hshort, Bool.false_eq_true, if_false, hsup, Bool.not_true]
  have hnq := urlencode_processed_ne_nil q tag
  rw [show qdictSet (qdictPop (qdictPop (qdictPop (parse_qs q) tagKey) refUnderscoreKey) thKey)
      tagKey [tag] = processedQP q tag from rfl]
  rw [hasin]
  try dsimp only
  rw [urlunparse]
  try dsimp only
  rw [params_path_eq]
  have hpth : ("/dp/".data ++ a ++ (if r = [] then [] else ';' :: r) : Str) = [] ∨
      ("/dp/".data ++ a ++ (if r = [] then [] else ';' :: r)).headD ' ' = '/' := Or.inr rfl
  rw [urlunsplit_std hnne hpth, if_pos hnq, buildUrl, if_neg hnq]

theorem dpParamsPath_ok {a r : Str} (ha : a.all isUpperAlnum = true) (hr : ParamsOk r) :
    charIn '?' ("/dp/".data ++ a ++ (if r = [] then [] else ';' :: r)) = false ∧
    charIn '#' ("/dp/".data ++ a ++ (if r = [] then [] else ';' :: r)) = false ∧
    CleanStr ("/dp/".data ++ a ++ (if r = [] then [] else ';' :: r)) := by
  obtain ⟨-, h2, h3, -, h5⟩ := PathOk_dp ha
  obtain ⟨hr1, hr2, hr3⟩ := hr
  refine ⟨?_, ?_, ?_⟩
  · rw [charIn_eq_false_iff]
    intro hm
    rcases List.mem_append.mp hm with hm | hm
    · exact charIn_eq_false_iff.mp h2 hm
    · by_cases hre : r = []
      · simp [hre] at hm
      · rw [if_neg hre] at hm
        rcases List.mem_cons.mp hm with hm | hm
        · exact absurd hm (by decide)
        · exact charIn_eq_false_iff.mp hr1 hm
  · rw [charIn_eq_false_iff]
    intro hm
    rcases List.mem_append.mp hm with hm | hm
    · exact charIn_eq_false_iff.mp h3 hm
    · by_cases hre : r = []
      · simp [hre] at hm
      · rw [if_neg hre] at hm
        rcases List.mem_cons.mp hm with hm | hm
        · exact absurd hm (by decide)
        · exact charIn_eq_false_iff.mp hr2 hm
  · intro c hc
    rcases List.mem_append.mp hc with hc | hc
    · exact h5 c hc
    · by_cases hre : r = []
      · simp [hre] at hc
      · rw [if_neg hre] at hc
        rcases List.mem_cons.mp hc with hc | hc
        · subst hc; decide
        · exact hr3 c hc

/-! ## Claim theorems -/

/-- C3: for every URL whose domain does not belong to the fixed
allow-list of supported domains (no element of `supported_domains` occurs
in the netloc, in the code's substring sense), `generate_affiliate_link`
returns the input URL unchanged — no affiliate tag attached, no
parameters removed. -/
theorem claim_C3_unsupported_domain_unchanged (resolve : Str → Option Str) (tag url : Str)
    (h : ∀ d ∈ supported_domains, strContains (urlparse url).netloc d = false) :
    generate_affiliate_link resolve tag url = url := by
  have hshort : isShortenedDomain (urlparse url).netloc = false := by
    rw [isShortenedDomain, h ("amzn.to".data) (by decide), h ("a.co".data) (by decide)]
    rfl
  have hsub : ∀ d ∈ supportedNonShort, d ∈ supported_domains := by decide
  have hsupf : supportedNonShort.any (fun d => strContains (urlparse url).netloc d) = false := by
    rw [List.any_eq_false]
    intro d hd
    rw [h d (hsub d hd)]
    exact Bool.false_ne_true
  rw [generate_affiliate_link]
  simp only [hshort, Bool.false_eq_true, if_false, hsupf, Bool.not_false, if_true]

/-- Witness for C3 at a concrete non-Amazon URL. -/
theorem claim_C3_witness :
    generate_affiliate_link noResolve defaultAffiliateTag exUrlC3 = exUrlC3 :=
  claim_C3_unsupported_domain_unchanged noResolve defaultAffiliateTag exUrlC3 (by decide)

/-- C7: for every shortened-domain URL (`amzn.to` or `a.co` occurs in
the netloc), when the redirect-following HEAD request fails
(`resolve url = none`), both `_clean_amazon_url` and
`generate_affiliate_link` proceed exactly as if the URL were already
canonical (the same computation as under an oracle that reports every
URL as its own final URL); the failure is not retried and no exception
escapes (both functions stay total and return a URL). -/
theorem claim_C7_resolution_failure_nonfatal (resolve : Str → Option Str) (tag url : Str)
    (hshort : isShortenedDomain (urlparse url).netloc = true)
    (hres : resolve url = none) :
    clean_amazon_url resolve url = clean_amazon_url selfResolve url ∧
      generate_affiliate_link resolve tag url = generate_affiliate_link selfResolve tag url := by
  constructor
  · rw [clean_amazon_url, clean_amazon_url, hres]
    dsimp only [selfResolve]
  · rw [generate_affiliate_link, generate_affiliate_link, hres]
    dsimp only [selfResolve]

/-- Witness for C7 at a concrete `amzn.to` URL. -/
theorem claim_C7_witness :
    clean_amazon_url noResolve exUrlC7 = clean_amazon_url selfResolve exUrlC7 ∧
      generate_affiliate_link noResolve defaultAffiliateTag exUrlC7 =
        generate_affiliate_link selfResolve defaultAffiliateTag exUrlC7 :=
  claim_C7_resolution_failure_nonfatal noResolve defaultAffiliateTag exUrlC7 (by decide) rfl

/-- C8: for every URL whose page fetch fails (timeout, connection error
or non-2xx status, i.e. the fetch oracle returns `none` on the effective
URL), `extract_product_info` returns the record with `title`, `price`
and `image_url` all absent, and no exception reaches the caller (the
function is total). -/
theorem claim_C8_fetch_failure_empty_record (resolve fetch : Str → Option Str)
    (scrape : Str → Str → ProductInfo) (url : Str)
    (h : fetch (clean_amazon_url resolve url) = none) :
    extract_product_info resolve fetch scrape url =
      { title := none, image_url := none, price := none } := by
  rw [extract_product_info, h]

/-- Witness for C8 at a concrete URL with an always-failing fetch. -/
theorem claim_C8_witness :
    extract_product_info noResolve fetchFail anyScrape exUrlC8 =
      { title := none, image_url := none, price := none } :=
  claim_C8_fetch_failure_empty_record noResolve fetchFail anyScrape exUrlC8 rfl

/-- C9: `shorten_url` tries TinyURL first; a valid response (a body that
strips to something starting with `http`) is returned without the is.gd
oracle influencing the result; on a TinyURL failure it falls back to
is.gd; and when both providers fail it returns the original URL — in
every case a string is returned without raising. -/
theorem claim_C9_shortener_fallback :
    (∀ (get : Str → Option Str) (u b : Str), get (tinyurlApi u) = some b →
        startsWithHttp (pyStrip b) = true → shorten_url get u = pyStrip b) ∧
    (∀ (get : Str → Option Str) (u : Str), firstProviderFails get u →
        ∀ b, get (isgdApi u) = some b → startsWithHttp (pyStrip b) = true →
          shorten_url get u = pyStrip b) ∧
    (∀ (get : Str → Option Str) (u : Str), firstProviderFails get u →
        secondProviderFails get u → shorten_url get u = u) := by
  refine ⟨?_, ?_, ?_⟩
  · intro get u b h1 h2
    simp only [shorten_url, h1, h2, if_true]
  · intro get u hfail b h1 h2
    rcases hfail with hf | ⟨b1, hb1, hb2⟩
    · simp only [shorten_url, hf, h1, h2, if_true]
    · simp only [shorten_url, hb1, hb2, h1, h2, if_true, Bool.false_eq_true, if_false]
  · intro get u hfail1 hfail2
    rcases hfail1 with hf | ⟨b1, hb1, hb2⟩ <;> rcases hfail2 with hg | ⟨b2, hc1, hc2⟩
    · simp only [shorten_url, hf, hg]
    · simp only [shorten_url, hf, hc1, hc2, Bool.false_eq_true, if_false]
    · simp only [shorten_url, hb1, hb2, hg, Bool.false_eq_true, if_false]
    · simp only [shorten_url, hb1, hb2, hc1, hc2, Bool.false_eq_true, if_false]

/-- Witness for C9: all three branches at concrete oracles. -/
theorem claim_C9_witness :
    shorten_url getC9first exLongUrlC9 = pyStrip exBodyC9a ∧
      shorten_url getC9second exLongUrlC9 = pyStrip exBodyC9b ∧
      shorten_url getC9fail exLongUrlC9 = exLongUrlC9 :=
  ⟨claim_C9_shortener_fallback.1 getC9first exLongUrlC9 exBodyC9a (by decide) (by decide),
   claim_C9_shortener_fallback.2.1 getC9second exLongUrlC9
     (Or.inr ⟨exErrBodyC9, by decide, by decide⟩) exBodyC9b (by decide) (by decide),
   claim_C9_shortener_fallback.2.2 getC9fail exLongUrlC9 (Or.inl rfl) (Or.inl rfl)⟩

/-- C10: `is_amazon_url` returns `True` for every text that begins with
`http://` or `https://` and contains ten consecutive characters from
`[A-Z0-9]` anywhere (even on a non-Amazon domain), and for every text
that consists of exactly ten uppercase-alphanumeric characters. -/
theorem claim_C10_link_gate_overmatch :
    (∀ pre mid suf : Str, startsHttpUrl (pre ++ mid ++ suf) = true →
        mid.length = 10 → mid.all isUpperAlnum = true →
        is_amazon_url (pre ++ mid ++ suf) = true) ∧
    (∀ text : Str, text.length = 10 → text.all isUpperAlnum = true →
        is_amazon_url text = true) := by
  constructor
  · intro pre mid suf h2 hlen hmid
    rw [is_amazon_url, isAmazonLoop_of_check2 h2, List.any_eq_true]
    refine ⟨pat6At, ?_, tenRun_pat6 hlen hmid⟩
    rw [amazonUrlPatterns]
    exact List.mem_cons_of_mem _ (List.mem_cons_of_mem _ (List.mem_cons_of_mem _
      (List.mem_cons_of_mem _ (List.mem_cons_of_mem _ (List.mem_cons_self _ _)))))
  · intro text hlen hall
    have h1 : (tenCharExact text && !startsLower text) = true := by
      have hhead : startsLower text = false := by
        rcases text with _ | ⟨c, cs⟩
        · cases hlen
        · have hc : isUpperAlnum c = true := by
            rw [List.all_eq_true] at hall
            exact hall c (List.mem_cons_self c cs)
          rw [startsLower, List.headD_cons]
          exact isUpperAlnum_not_lower hc
      rw [tenCharExact, hlen, hall, hhead]
      rfl
    rw [is_amazon_url, isAmazonLoop_of_check1 h1, List.any_eq_true]
    refine ⟨pat6At, ?_, ?_⟩
    · rw [amazonUrlPatterns]
      exact List.mem_cons_of_mem _ (List.mem_cons_of_mem _ (List.mem_cons_of_mem _
        (List.mem_cons_of_mem _ (List.mem_cons_of_mem _ (List.mem_cons_self _ _)))))
    have := tenRun_pat6 (w := []) (z := []) hlen hall
    simpa using this

/-- Witness for C10: a non-Amazon URL with an embedded ten-character
run, and a bare ASIN. -/
theorem claim_C10_witness :
    is_amazon_url exTextC10a = true ∧ is_amazon_url exTextC10b = true :=
  ⟨by
    have := claim_C10_link_gate_overmatch.1 ("https://randomsite.org/file/".data)
      ("XYZ0123456".data) [] (by decide) (by decide) (by decide)
    simpa using this,
   claim_C10_link_gate_overmatch.2 exTextC10b (by decide) (by decide)⟩

/-- C4: for every supported-domain URL whose path contains a
ten-character uppercase-alphanumeric token immediately after the first
occurrence of a path marker (`dp/` or `gp/product/`; no earlier position
of the path matches the pattern), `_get_asin_from_url` returns exactly
that token. -/
theorem claim_C4_path_token_extracted {u : Str} {s n p r q f : Str}
    {w m t z : Str}
    (hup : urlparse u = ⟨s, n, p, r, q, f⟩)
    (hdom : supported_domains.any (fun d => strContains n d) = true)
    (hpatheq : p = w ++ (m ++ (t ++ z)))
    (hm : m = "dp/".data ∨ m = "gp/product/".data)
    (hlen : t.length = 10) (htok : t.all isUpperAlnum = true)
    (hfirst : ∀ i < w.length, matchAsinAt (p.drop i) = none) :
    get_asin_from_url u = some t := by
  have hdrop : p.drop w.length = m ++ (t ++ z) := by
    rw [hpatheq]
    exact List.drop_left' rfl
  have hsearch : asinSearch p = some t := by
    rw [asinSearch_skip hfirst, hdrop]
    have hmm : matchAsinAt (m ++ (t ++ z)) = some t := matchAsinAt_marker hm hlen htok
    rcases hx : m ++ (t ++ z) with _ | ⟨c, cs⟩
    · rw [hx] at hmm
      rw [matchAsinAt] at hmm
      simp only [show ("dp/".data : Str).isPrefixOf [] = false from rfl, Bool.false_eq_true,
        if_false, show ("gp/product/".data : Str).isPrefixOf [] = false from rfl] at hmm
      cases hmm
    · rw [hx] at hmm
      rw [asinSearch_cons, hmm]
  rw [get_asin_from_url, hup]
  dsimp only
  rw [hsearch]

/-- Witness for C4 at a concrete `gp/product/` URL. -/
theorem claim_C4_witness : get_asin_from_url exUrlC4 = some ("B000000001".data) :=
  claim_C4_path_token_extracted (u := exUrlC4) (s := "https".data)
    (n := "www.amazon.com".data) (p := "/gp/product/B000000001".data) (r := [])
    (q := "x=1".data) (f := []) (w := "/".data) (m := "gp/product/".data)
    (t := "B000000001".data) (z := []) (by decide) (by decide) (by decide)
    (Or.inr rfl) (by decide) (by decide) (by decide)

/-- C5 fails on the code: the query lookup of `_get_asin_from_url` is
not case-insensitive.  At the concrete URL `exUrlC5` the identifier sits
in the query under the key `Asin` (a capitalisation of `asin`), no path
marker matches, and the extractor returns `none` instead of the
parameter's value. -/
theorem claim_C5_counterexample :
    parse_qs (urlparse exUrlC5).query = [("Asin".data, ["B08N5WRWNW".data])] ∧
      asinSearch (urlparse exUrlC5).path = none ∧
      get_asin_from_url exUrlC5 = none := by
  refine ⟨by decide, by decide, by decide⟩

/-- C5 amended: when no path-marker match exists, `_get_asin_from_url`
looks up exactly the query keys `ASIN` and then `asin` (in that order,
case-sensitively) and returns the first value of the first key present. -/
theorem claim_C5_amended_exact_keys {u : Str} {s n p r q f : Str}
    (hup : urlparse u = ⟨s, n, p, r, q, f⟩)
    (hpath : asinSearch p = none) :
    (∀ v vs, qdictGet? (parse_qs q) asinKeyUpper = some (v :: vs) →
        get_asin_from_url u = some v) ∧
    (qdictGet? (parse_qs q) asinKeyUpper = none →
      ∀ v vs, qdictGet? (parse_qs q) asinKeyLower = some (v :: vs) →
        get_asin_from_url u = some v) := by
  constructor
  · intro v vs h
    rw [get_asin_from_url, hup]
    dsimp only
    rw [hpath]
    dsimp only
    rw [h]
    rfl
  · intro h v vs h2
    rw [get_asin_from_url, hup]
    dsimp only
    rw [hpath]
    dsimp only
    rw [h]
    dsimp only
    rw [h2]
    rfl

/-- Witness for the amended C5 at a concrete `ASIN=` URL. -/
theorem claim_C5_amended_witness : get_asin_from_url exUrlC5b = some ("B000123456".data) :=
  (claim_C5_amended_exact_keys (u := exUrlC5b) (s := "https".data)
    (n := "amazon.in".data) (p := "/somepage".data) (r := [])
    (q := "ASIN=B000123456".data) (f := []) (by decide) (by decide)).1
    ("B000123456".data) [] (by decide)

theorem asinCharsOk_spec {url : Str} (h : AsinCharsOk url = true) :
    ∀ a, get_asin_from_url url = some a → a.all isUpperAlnum = true := by
  intro a ha
  rw [AsinCharsOk, ha] at h
  exact h

theorem genAff_tag_filter {resolve : Str → Option Str} {tag url : Str} {s n p pr q f : Str}
    (hup : urlparse url = ⟨s, n, p, pr, q, f⟩)
    (hpr : pr = [])
    (hshort : isShortenedDomain n = false)
    (hsup : supportedNonShort.any (fun d => strContains n d) = true)
    (hs : SchemeOk s) (hn : NetlocOk n) (hpath : PathOk p)
    (htag : tag ≠ [])
    (hasin : AsinCharsOk url = true) :
    (urlQueryPairs (generate_affiliate_link resolve tag url)).filter
      (fun e => decide (e.1 = tagKey)) = [(tagKey, tag)] := by
  rw [genAff_query_pairs hup hpr hshort hsup (supported_netloc_ne_nil hsup) hs hn hpath htag
    (asinCharsOk_spec hasin), List.filter_append]
  have h1 : (qdictPairs (strippedQP q)).filter (fun e => decide (e.1 = tagKey)) = [] := by
    rw [List.filter_eq_nil]
    intro e he
    rcases qdictPairs_keys e he with ⟨e', he', hk⟩
    simp only [decide_eq_true_eq, hk]
    exact (strippedQP_keys e' he').1
  rw [h1, List.nil_append]
  simp

theorem genAff_no_tracking {resolve : Str → Option Str} {tag url : Str} {s n p pr q f : Str}
    (hup : urlparse url = ⟨s, n, p, pr, q, f⟩)
    (hpr : pr = [])
    (hshort : isShortenedDomain n = false)
    (hsup : supportedNonShort.any (fun d => strContains n d) = true)
    (hs : SchemeOk s) (hn : NetlocOk n) (hpath : PathOk p)
    (htag : tag ≠ [])
    (hasin : AsinCharsOk url = true) :
    ∀ e ∈ urlQueryPairs (generate_affiliate_link resolve tag url),
      ¬e.1 = refUnderscoreKey ∧ ¬e.1 = thKey := by
  intro e he
  rw [genAff_query_pairs hup hpr hshort hsup (supported_netloc_ne_nil hsup) hs hn hpath htag
    (asinCharsOk_spec hasin)] at he
  rcases List.mem_append.mp he with he | he
  · rcases qdictPairs_keys e he with ⟨e', he', hk⟩
    exact ⟨hk ▸ (strippedQP_keys e' he').2.1, hk ▸ (strippedQP_keys e' he').2.2⟩
  · simp only [List.mem_singleton] at he
    subst he
    refine ⟨?_, ?_⟩
    · show ¬tagKey = refUnderscoreKey
      decide
    · show ¬tagKey = thKey
      decide

/-- C1 fails on the code twice over.  At the spec's own example input
the residual query parameter `ref=xyz` is not discarded (only `tag`,
`ref_` and `th` are removed), so the output is
`…/dp/B08N5WRWNW?ref=xyz&tag=budgetlooks08-21`, not the promised
`…/dp/B08N5WRWNW?tag=budgetlooks08-21`.  And a `;params` component on
the last path segment is not discarded either: `_replace` sets only
`path`, `query` and `fragment`, so the parsed params slot is kept and
`…/dp/B08N5WRWNW;x?ref=xyz` is rewritten to
`…/dp/B08N5WRWNW;x?ref=xyz&tag=budgetlooks08-21`. -/
theorem claim_C1_counterexample :
    (generate_affiliate_link noResolve defaultAffiliateTag exInputC1 = actualOutputC1 ∧
      actualOutputC1 ≠ claimedOutputC1) ∧
    generate_affiliate_link noResolve defaultAffiliateTag exInputC1b = actualOutputC1b := by
  refine ⟨⟨?_, ?_⟩, ?_⟩
  · decide
  · decide
  · decide

/-- C1 amended: for every rewriteable URL (supported non-shortened
domain, well-formed components) from which an identifier `a` is
extracted, the output is rebuilt as scheme, domain and the path
`/dp/<a>` with the URL's `;params` component reattached when present —
the prior path and fragment are discarded, the params component is
kept — while the prior query is kept minus the removal set
`tag`/`ref_`/`th`, with the affiliate parameter appended at the end. -/
theorem claim_C1_amended_rebuild {resolve : Str → Option Str} {tag u : Str}
    {s n p r q f a : Str}
    (hup : urlparse u = ⟨s, n, p, r, q, f⟩)
    (hshort : isShortenedDomain n = false)
    (hsup : supportedNonShort.any (fun d => strContains n d) = true)
    (hs : SchemeOk s) (hn : NetlocOk n) (hr : ParamsOk r)
    (htag : tag ≠ [])
    (hasin : get_asin_from_url u = some a)
    (ha : a.all isUpperAlnum = true) :
    generate_affiliate_link resolve tag u =
      buildUrl s n ("/dp/".data ++ a ++ (if r = [] then [] else ';' :: r))
        (urlencode (processedQP q tag)) ∧
    urlQueryPairs (generate_affiliate_link resolve tag u) =
      qdictPairs (strippedQP q) ++ [(tagKey, tag)] := by
  have h1 := @genAff_rewrite_asin resolve tag u s n p r q f a hup hshort hsup hasin
  refine ⟨h1, ?_⟩
  obtain ⟨hp2, hp3, hp5⟩ := dpParamsPath_ok ha hr
  have hpp1 : ("/dp/".data ++ a ++ (if r = [] then [] else ';' :: r) : Str) = [] ∨
      ("/dp/".data ++ a ++ (if r = [] then [] else ';' :: r)).headD ' ' = '/' := Or.inr rfl
  rw [urlQueryPairs, h1, urlparse_buildUrl_query hs hn hpp1 hp2 hp3 hp5 (QueryOk_urlencode _),
    parse_qsl_urlencode (processedQP_values htag), processedQP_pairs]

/-- Witness for the amended C1 at the example input carrying a
`;params` component. -/
theorem claim_C1_amended_witness :
    generate_affiliate_link noResolve defaultAffiliateTag exInputC1b =
      buildUrl ("https".data) ("amazon.in".data)
        ("/dp/".data ++ "B08N5WRWNW".data ++
          (if ("x".data : Str) = [] then [] else ';' :: "x".data))
        (urlencode (processedQP ("ref=xyz".data) defaultAffiliateTag)) ∧
    urlQueryPairs (generate_affiliate_link noResolve defaultAffiliateTag exInputC1b) =
      qdictPairs (strippedQP ("ref=xyz".data)) ++ [(tagKey, defaultAffiliateTag)] :=
  @claim_C1_amended_rebuild noResolve defaultAffiliateTag exInputC1b ("https".data)
    ("amazon.in".data) ("/dp/B08N5WRWNW".data) ("x".data) ("ref=xyz".data) [] ("B08N5WRWNW".data)
    (by decide) (by decide) (by decide) (by decide) (by decide) (by decide) (by decide)
    (by decide) (by decide)

/-- C2: for every URL on an allow-listed rewriting domain (a supported
non-shortened domain, with well-formed components) whose query carries
at least one tracking parameter from the removal set
(`tag`, `ref_`, `th`), the rewritten URL's decoded query pairs contain
no `ref_` or `th` key, and contain exactly one pair for the affiliate
key `tag`, whose value is the configured affiliate tag. -/
theorem claim_C2_removal_set_stripped {resolve : Str → Option Str} {tag u : Str}
    {s n p r q f : Str}
    (hup : urlparse u = ⟨s, n, p, r, q, f⟩)
    (hpr : r = [])
    (hshort : isShortenedDomain n = false)
    (hsup : supportedNonShort.any (fun d => strContains n d) = true)
    (hs : SchemeOk s) (hn : NetlocOk n) (hpath : PathOk p)
    (htag : tag ≠ [])
    (hasin : AsinCharsOk u = true)
    (hcarries : ∃ e ∈ parse_qs q, e.1 = tagKey ∨ e.1 = refUnderscoreKey ∨ e.1 = thKey) :
    (∀ e ∈ urlQueryPairs (generate_affiliate_link resolve tag u),
        ¬e.1 = refUnderscoreKey ∧ ¬e.1 = thKey) ∧
    (urlQueryPairs (generate_affiliate_link resolve tag u)).filter
      (fun e => decide (e.1 = tagKey)) = [(tagKey, tag)] :=
  ⟨genAff_no_tracking hup hpr hshort hsup hs hn hpath htag hasin,
   genAff_tag_filter hup hpr hshort hsup hs hn hpath htag hasin⟩

/-- Witness for C2 at a URL carrying `tag`, `ref_` and `th`. -/
theorem claim_C2_witness :
    (∀ e ∈ urlQueryPairs (generate_affiliate_link noResolve defaultAffiliateTag exUrlC2),
        ¬e.1 = refUnderscoreKey ∧ ¬e.1 = thKey) ∧
    (urlQueryPairs (generate_affiliate_link noResolve defaultAffiliateTag exUrlC2)).filter
      (fun e => decide (e.1 = tagKey)) = [(tagKey, defaultAffiliateTag)] :=
  claim_C2_removal_set_stripped (u := exUrlC2) (s := "https".data)
    (n := "www.amazon.com".data) (p := "/Nice-Product/dp/B07XYZ1234".data) (r := [])
    (q := "th=1&ref_=aa&keep=1&tag=old".data) (f := [])
    (by decide) (by decide) (by decide) (by decide) (by decide) (by decide) (by decide)
    (by decide) (by decide)
    ⟨(thKey, ["1".data]), by decide, Or.inr (Or.inr rfl)⟩

/-- C6: rewriting an already-rewritten link is idempotent with respect
to the affiliate parameter.  For every rewriteable URL whose query
already carries the affiliate parameter with the same configured tag,
rewriting again yields a URL whose decoded query pairs contain exactly
one `tag` pair — with the configured value, never a duplicate. -/
theorem claim_C6_rewrite_idempotent_tag {resolve : Str → Option Str} {tag v : Str}
    {s n p r q f : Str}
    (hup : urlparse v = ⟨s, n, p, r, q, f⟩)
    (hpr : r = [])
    (hshort : isShortenedDomain n = false)
    (hsup : supportedNonShort.any (fun d => strContains n d) = true)
    (hs : SchemeOk s) (hn : NetlocOk n) (hpath : PathOk p)
    (htag : tag ≠ [])
    (hasin : AsinCharsOk v = true)
    (halready : qdictGet? (parse_qs q) tagKey = some [tag]) :
    (urlQueryPairs (generate_affiliate_link resolve tag v)).filter
      (fun e => decide (e.1 = tagKey)) = [(tagKey, tag)] ∧
    ((urlQueryPairs (generate_affiliate_link resolve tag v)).filter
      (fun e => decide (e.1 = tagKey))).length = 1 := by
  have h := @genAff_tag_filter resolve tag v s n p r q f hup hpr hshort hsup hs hn hpath
    htag hasin
  exact ⟨h, by rw [h]; rfl⟩

/-- Witness for C6 at the code's own output for the example input. -/
theorem claim_C6_witness :
    (urlQueryPairs (generate_affiliate_link noResolve defaultAffiliateTag exUrlC6)).filter
      (fun e => decide (e.1 = tagKey)) = [(tagKey, defaultAffiliateTag)] ∧
    ((urlQueryPairs (generate_affiliate_link noResolve defaultAffiliateTag exUrlC6)).filter
      (fun e => decide (e.1 = tagKey))).length = 1 :=
  claim_C6_rewrite_idempotent_tag (v := exUrlC6) (s := "https".data)
    (n := "amazon.in".data) (p := "/dp/B08N5WRWNW".data) (r := [])
    (q := "ref=xyz&tag=budgetlooks08-21".data) (f := [])
    (by decide) (by decide) (by decide) (by decide) (by decide) (by decide) (by decide)
    (by decide) (by decide) (by decide)
